import Mathlib

/-! # Verification of the markdown-to-pdf document assembly pipeline

Shallow embedding of `src/index.cjs` over `List Char` strings: heading
extraction, anchor-id generation, table-of-contents building, anchor
injection, image path remapping, the linked-mode copy step, the embedded-mode
base64 data URIs, and the command-line exit decision.  JavaScript regular
expressions are translated into explicit scanning functions with the same
leftmost-match and backtracking behaviour.  Side effects (log lines, the
actual file copies and writes) are not modelled; the theorems are about the
values the functions return.
-/

/-- Strings modelled as lists of characters. -/
abbrev Chars := List Char

/-- JavaScript whitespace (`\s`, and the set trimmed by
`String.prototype.trim`), ASCII part; Unicode spaces are not modelled. -/
def isWs (c : Char) : Bool :=
  c = ' ' || c = '\t' || c = '\n' || c = '\r' || c = '\x0B' || c = '\x0C'

/-- Characters matched by `.` in a JavaScript regex without the `s` flag:
anything but a line terminator (the ASCII ones; U+2028/9 are not modelled). -/
def dotOk (c : Char) : Bool := !(c = '\n' || c = '\r')

/-- `String.prototype.trim`. -/
def trimC (s : Chars) : Chars :=
  ((s.dropWhile isWs).reverse.dropWhile isWs).reverse

/-- `content.split("\n")`: split at every newline, keeping empty pieces. -/
def splitLines : Chars → List Chars
  | [] => [[]]
  | c :: cs =>
    if c = '\n' then [] :: splitLines cs
    else
      match splitLines cs with
      | [] => [[c]]
      | l :: ls => (c :: l) :: ls

/-- `String.prototype.replace` with a plain-string pattern: replace the first
occurrence only.  `$`-substitution in the replacement is not modelled (every
replacement string reached by the claims is `$`-free), and the JavaScript
behaviour for the empty pattern is irrelevant here (all patterns used are
nonempty). -/
def replaceFirst (pat repl : Chars) : Chars → Chars
  | [] => []
  | c :: cs =>
    if pat.isPrefixOf (c :: cs) then repl ++ (c :: cs).drop pat.length
    else c :: replaceFirst pat repl cs

/-- Recursion core of the `/g` replacement, structural on a fuel bound (one
unit per scanned position; a nonempty match consumes at least one position,
so an initial fuel of the string's length always suffices). -/
def replaceAllGo (pat repl : Chars) : Nat → Chars → Chars
  | _, [] => []
  | 0, s => s
  | fuel + 1, c :: cs =>
    if pat.isPrefixOf (c :: cs) ∧ pat ≠ [] then
      repl ++ replaceAllGo pat repl fuel ((c :: cs).drop pat.length)
    else c :: replaceAllGo pat repl fuel cs

/-- `String.prototype.replace` with a `/g` literal pattern: replace every
occurrence, left to right, non-overlapping, continuing after each
replacement's end in the original string. -/
def replaceAllG (pat repl s : Chars) : Chars := replaceAllGo pat repl s.length s

/-! ## Heading extraction (`extractHeadings`)

The per-line test is `line.match(/^(#{1,6})\s+(.+)$/)`.  The regex is
translated with its backtracking behaviour: `#{1,6}` greedily, `\s+` greedily
with fallback, `(.+)$` forced to cover the remainder with `.` excluding line
terminators. -/

/-- Match `k` leading `#` characters, returning the remainder. -/
def hashTake : Nat → Chars → Option Chars
  | 0, l => some l
  | _ + 1, [] => none
  | k + 1, c :: cs => if c = '#' then hashTake k cs else none

/-- Backtracking for `\s+(.+)$` once at least one whitespace character has
been consumed: greedily extend the `\s+` run, falling back to starting the
`(.+)` group at the current position (which must then consist of `.`-matchable
characters up to the end anchor). -/
def wsTextGo : Chars → Option Chars
  | [] => none
  | c :: cs =>
    if isWs c then
      match wsTextGo cs with
      | some t => some t
      | none => if (c :: cs).all dotOk then some (c :: cs) else none
    else if (c :: cs).all dotOk then some (c :: cs) else none

/-- Match `\s+(.+)$` against the remainder of a line, returning group 2. -/
def wsText : Chars → Option Chars
  | [] => none
  | c :: cs => if isWs c then wsTextGo cs else none

/-- Greedy `#{1,6}` with backtracking: try `k` hashes first, then fewer. -/
def tryHashes : Nat → Chars → Option (Nat × Chars)
  | 0, _ => none
  | k + 1, l =>
    match hashTake (k + 1) l with
    | some rest =>
      match wsText rest with
      | some t => some (k + 1, t)
      | none => tryHashes k l
    | none => tryHashes k l

/-- The heading test of `extractHeadings`, returning (level, raw group 2). -/
def matchHeadingLine (l : Chars) : Option (Nat × Chars) := tryHashes 6 l

/-- ASCII letter or digit. -/
def isAlnum (c : Char) : Bool :=
  ('a' ≤ c && c ≤ 'z') || ('A' ≤ c && c ≤ 'Z') || ('0' ≤ c && c ≤ '9')

/-- Modelled from the spec: the Anchor Identifier Generator (spec section
4.2).  The implementation delegates to the npm `slugify` package with
`{ lower: true, strict: true, replacement: "-" }`, whose sources are not part
of this repository; the spec describes the generator as producing lowercase
ASCII letters, digits and hyphens, with non-alphanumeric runs collapsed to a
single hyphen.  This function performs the collapse and lowering. -/
def slugCollapseGo : Nat → Chars → Chars
  | _, [] => []
  | 0, _ => []
  | fuel + 1, c :: cs =>
    if isAlnum c then c.toLower :: slugCollapseGo fuel cs
    else '-' :: slugCollapseGo fuel (cs.dropWhile (fun d => !isAlnum d))

/-- Modelled from the spec: the collapse pass of the Anchor Identifier
Generator, with fuel equal to the string length (each step consumes at least
one character, so the fuel never runs out). -/
def slugCollapse (s : Chars) : Chars := slugCollapseGo s.length s

/-- Modelled from the spec: the Anchor Identifier Generator (spec section
4.2), completing `slugCollapse` by trimming leading and trailing hyphens. -/
def slugifyModel (s : Chars) : Chars :=
  (((slugCollapse s).dropWhile (· = '-')).reverse.dropWhile (· = '-')).reverse

/-- A heading record `{ level, text, id }` as produced by `extractHeadings`. -/
structure Heading where
  level : Nat
  text : Chars
  id : Chars
deriving DecidableEq

/-- The loop of `extractHeadings` over the split lines: one record per
matching line, in document order; the text is the trimmed group 2 and the id
its slug. -/
def headingsOfLines : List Chars → List Heading
  | [] => []
  | l :: ls =>
    match matchHeadingLine l with
    | some (lv, t) => ⟨lv, trimC t, slugifyModel (trimC t)⟩ :: headingsOfLines ls
    | none => headingsOfLines ls

/-- `extractHeadings(content)`. -/
def extractHeadings (content : Chars) : List Heading :=
  headingsOfLines (splitLines content)

/-- Following the words of claim C7, unamended: a line that starts with 1–6
`#` characters followed by at least one whitespace character yields a record
whose level is the `#` count and whose text is the trimmed remainder. -/
def headingLineClaim (l : Chars) : Option (Nat × Chars) :=
  let h := (l.takeWhile (· = '#')).length
  if 1 ≤ h ∧ h ≤ 6 ∧ (l.drop h).head?.any isWs then
    some (h, trimC (l.drop h))
  else none

/-- The amended form of claim C7: additionally the line must have at least
one further character after the first whitespace character. -/
def headingLineSpecA (l : Chars) : Option (Nat × Chars) :=
  let h := (l.takeWhile (· = '#')).length
  if 1 ≤ h ∧ h ≤ 6 ∧ (l.drop h).head?.any isWs ∧ 2 ≤ (l.drop h).length then
    some (h, trimC (l.drop h))
  else none

/-! ## Path helpers (Node `path`, POSIX)

These model the Node builtins the resolver calls.  `resolvePath` does not
model dot-segment normalisation or the process working directory: every
theorem quantifies over the file-system map, so only the lookup key matters.
`extname` may differ from Node on basenames consisting solely of dots. -/

/-- Node `path.dirname` (POSIX). -/
def dirname (p : Chars) : Chars :=
  let r := ((p.reverse.dropWhile (· = '/')).dropWhile (· ≠ '/')).dropWhile (· = '/')
  if r = [] then (if p.head? = some '/' then ['/'] else ['.']) else r.reverse

/-- Node `path.basename` (POSIX, one argument). -/
def basename (p : Chars) : Chars :=
  ((p.reverse.dropWhile (· = '/')).takeWhile (· ≠ '/')).reverse

/-- Node `path.extname` (POSIX): from the last `.` of the basename; empty
when there is no dot or the only dot is the leading character. -/
def extname (p : Chars) : Chars :=
  let b := basename p
  let afterDot := b.reverse.takeWhile (· ≠ '.')
  if afterDot.length = b.length then []
  else if afterDot.length + 1 = b.length then []
  else '.' :: afterDot.reverse

/-- Modelled from Node `path.resolve(sourceDir, p)`: an absolute `p` wins,
otherwise `p` is joined onto `sourceDir`. -/
def resolvePath (dir p : Chars) : Chars :=
  if p.head? = some '/' then p else dir ++ '/' :: p

/-- Lowercasing, `String.prototype.toLowerCase` (ASCII part). -/
def lowerChars (s : Chars) : Chars := s.map Char.toLower

/-! ## Image path remapping (`imagePathConfig`, `remapImagePath`) -/

/-- The test `imagePath.match(/^https?:\/\//i)` used throughout the pipeline
to classify a reference as an external URL. -/
def isExternalUrl (p : Chars) : Bool :=
  "http://".data.isPrefixOf (lowerChars p) ||
    "https://".data.isPrefixOf (lowerChars p)

/-- The module-level `imagePathConfig`: a flag plus an ordered list of
pattern/replacement pairs.  The default regex `/\/assets\//g` and the
CLI-built escaped-literal regexes are both literal global replacements, so a
mapping is a pair of plain strings. -/
structure ImagePathConfig where
  enableRemapping : Bool
  pathMappings : List (Chars × Chars)

/-- The default `imagePathConfig` of the source. -/
def defaultImagePathConfig : ImagePathConfig :=
  ⟨true, [("/assets/".data, "/_assets/".data)]⟩

/-- The result record of `remapImagePath`. -/
structure RemappedImage where
  path : Chars
  isExternal : Bool
deriving DecidableEq

/-- `remapImagePath(imagePath)`: external URLs pass through as external;
otherwise each mapping is applied in list order as a global replacement. -/
def remapImagePath (cfg : ImagePathConfig) (imagePath : Chars) : RemappedImage :=
  if isExternalUrl imagePath then ⟨imagePath, true⟩
  else
    ⟨if cfg.enableRemapping then
        cfg.pathMappings.foldl (fun acc m => replaceAllG m.1 m.2 acc) imagePath
      else imagePath,
      false⟩

/-! ## Linked mode: the copy step (`copyImages`)

The returned reference strings are modelled; the `fs.copyFileSync` /
`fs.mkdirSync` side effects and the `console.log` lines are not.  The
file-system is a predicate standing for `fs.existsSync`. -/

/-- `relativeDir.replace(/^\.\//, "")`. -/
def stripDotSlash (l : Chars) : Chars :=
  if "./".data.isPrefixOf l then l.drop 2 else l

/-- The body of the `imagePaths.map` callback in `copyImages`: the reference
string returned for one image path. -/
def copyImageRef (fsEx : Chars → Bool) (cfg : ImagePathConfig)
    (sourceDir : Chars) (imagePath : Chars) : Chars :=
  if isExternalUrl imagePath then imagePath
  else
    let remapped := remapImagePath cfg imagePath
    if remapped.isExternal then remapped.path
    else
      let pathToResolve := remapped.path
      let resolved := resolvePath sourceDir pathToResolve
      if fsEx resolved then
        let relativeDir := stripDotSlash (dirname pathToResolve)
        let fileName := basename resolved
        if relativeDir = ".".data then "images/".data ++ fileName
        else "images/".data ++ relativeDir ++ '/' :: fileName
      else imagePath

/-- `copyImages(sourceFilePath, imagePaths, outputDir)`: the list of
references returned for the rendered markup. -/
def copyImages (fsEx : Chars → Bool) (cfg : ImagePathConfig)
    (sourceFilePath : Chars) (imagePaths : List Chars) : List Chars :=
  imagePaths.map (copyImageRef fsEx cfg (dirname sourceFilePath))

/-! ## Embedded mode: base64 data URIs (`convertImagesToBase64`) -/

/-- The MIME switch of `convertImagesToBase64`. -/
def mimeFromExt (ext : Chars) : Chars :=
  if ext = "jpg".data ∨ ext = "jpeg".data then "image/jpeg".data
  else if ext = "png".data then "image/png".data
  else if ext = "gif".data then "image/gif".data
  else if ext = "svg".data then "image/svg+xml".data
  else if ext = "webp".data then "image/webp".data
  else "image/".data ++ ext

/-- The standard base64 alphabet (`Buffer.toString("base64")`). -/
def b64Alphabet : Chars :=
  "ABCDEFGHIJKLMNOPQRSTUVWXYZabcdefghijklmnopqrstuvwxyz0123456789+/".data

/-- The base64 digit for a 6-bit value. -/
def b64Char (n : Nat) : Char := b64Alphabet.getD n 'A'

/-- `Buffer.toString("base64")` on a byte list: 3-byte groups to 4 digits,
`=`-padded. -/
def base64Encode : List Nat → Chars
  | [] => []
  | [b1] => [b64Char (b1 / 4), b64Char (b1 % 4 * 16), '=', '=']
  | [b1, b2] =>
    [b64Char (b1 / 4), b64Char (b1 % 4 * 16 + b2 / 16), b64Char (b2 % 16 * 4), '=']
  | b1 :: b2 :: b3 :: rest =>
    b64Char (b1 / 4) :: b64Char (b1 % 4 * 16 + b2 / 16) ::
      b64Char (b2 % 16 * 4 + b3 / 64) :: b64Char (b3 % 64) :: base64Encode rest

/-- The 6-bit value of a base64 digit. -/
def b64Val (c : Char) : Option Nat := b64Alphabet.findIdx? (· = c)

/-- Standard base64 decoding, used to state that the embedded payload decodes
back to the source file's bytes. -/
def base64Decode : Chars → Option (List Nat)
  | [] => some []
  | c1 :: c2 :: c3 :: c4 :: rest =>
    (b64Val c1).bind fun k1 =>
    (b64Val c2).bind fun k2 =>
    if c3 = '=' ∧ c4 = '=' ∧ rest = [] then some [k1 * 4 + k2 / 16]
    else
      (b64Val c3).bind fun k3 =>
      if c4 = '=' ∧ rest = [] then
        some [k1 * 4 + k2 / 16, k2 % 16 * 16 + k3 / 4]
      else
        (b64Val c4).bind fun k4 =>
        (base64Decode rest).bind fun tail =>
        some ((k1 * 4 + k2 / 16) :: (k2 % 16 * 16 + k3 / 4) ::
          (k3 % 4 * 64 + k4) :: tail)
  | _ => none

/-- The body of the `for (const img of imgTags)` loop in
`convertImagesToBase64`, processing one collected `(fullTag, src)` pair
against the accumulated markup.  The file-system maps a path to its byte
content when `fs.existsSync` holds; `console.log` lines are not modelled. -/
def embedTag (fs : Chars → Option (List Nat)) (cfg : ImagePathConfig)
    (sourceDir : Chars) (processedHtml : Chars) (img : Chars × Chars) : Chars :=
  if isExternalUrl img.2 then processedHtml
  else
    let remapped := remapImagePath cfg img.2
    if remapped.isExternal then processedHtml
    else
      let resolved := resolvePath sourceDir remapped.path
      match fs resolved with
      | some bytes =>
        let ext := lowerChars ((extname resolved).drop 1)
        let dataUri := "data:".data ++ mimeFromExt ext ++ ";base64,".data ++
          base64Encode bytes
        let newTag := replaceFirst ("src=\"".data ++ img.2 ++ "\"".data)
          ("src=\"".data ++ dataUri ++ "\"".data) img.1
        replaceFirst img.1 newTag processedHtml
      | none => processedHtml

/-- The processing phase of `convertImagesToBase64(sourceFilePath, html)`:
the fold of `embedTag` over the img tags collected by the
`/<img[^>]+src="([^"]+)"[^>]*>/g` scan (the collected list is taken as an
argument; the claims are about the per-element processing). -/
def convertImagesToBase64 (fs : Chars → Option (List Nat))
    (cfg : ImagePathConfig) (sourceFilePath : Chars)
    (imgTags : List (Chars × Chars)) (html : Chars) : Chars :=
  imgTags.foldl (embedTag fs cfg (dirname sourceFilePath)) html

/-! ## Table of contents (`generateTOC`) -/

/-- One TOC line of `generateTOC`: the template literal
`indent<li class="toc-level-L"><a href="#id">display</a></li>\n` with
`indent = "  ".repeat(level - 1)` and the display text the record's text with
every literal `**` removed (`/\*\*/g`). -/
def tocEntry (h : Heading) : Chars :=
  (List.replicate (h.level - 1) "  ".data).flatten ++
    "<li class=\"toc-level-".data ++ (Nat.repr h.level).data ++
    "\"><a href=\"#".data ++ h.id ++ "\">".data ++
    replaceAllG "**".data [] h.text ++
    "</a></li>\n".data

/-- `generateTOC(headings)`: header, one accumulated line per record, then
the closing markup with the page-break marker. -/
def generateTOC (headings : List Heading) : Chars :=
  headings.foldl (fun acc h => acc ++ tocEntry h)
      "<div class=\"toc-container\">\n<h2>Table of Contents</h2>\n<ul class=\"toc\">\n".data
    ++ "</ul>\n</div>\n<div class=\"page-break\"></div>\n".data

/-! ## Anchor injection (`addHeadingIds`)

The per-record pattern is `new RegExp("<hL>(.*?)</hL>", "g")`, driven by a
`regex.exec` loop that stops at the first match whose trimmed inner text
equals the record's trimmed text, then replaces that matched substring (first
occurrence) with the same element carrying an `id` attribute. -/

/-- `<hL>`. -/
def openTag (lv : Nat) : Chars := "<h".data ++ (Nat.repr lv).data ++ ">".data

/-- `</hL>`. -/
def closeTag (lv : Nat) : Chars := "</h".data ++ (Nat.repr lv).data ++ ">".data

/-- `<hL id="...">`. -/
def openIdTag (lv : Nat) (anchor : Chars) : Chars :=
  "<h".data ++ (Nat.repr lv).data ++ " id=\"".data ++ anchor ++ "\">".data

/-- Lazy `(.*?)` up to the closing literal: the shortest inner run of
`.`-matchable characters followed by the closing tag. -/
def lazyInner (cl : Chars) : Chars → Option (Chars × Chars)
  | [] => none
  | c :: cs =>
    if cl.isPrefixOf (c :: cs) then some ([], (c :: cs).drop cl.length)
    else if dotOk c then (lazyInner cl cs).map (fun p => (c :: p.1, p.2))
    else none

/-- The leftmost match of `op(.*?)cl`: returns the inner group and the
remainder after the match. -/
def findTag (op cl : Chars) : Chars → Option (Chars × Chars)
  | [] => none
  | c :: cs =>
    if op.isPrefixOf (c :: cs) then
      match lazyInner cl ((c :: cs).drop op.length) with
      | some (inner, rest) => some (inner, rest)
      | none => findTag op cl cs
    else findTag op cl cs

/-- Recursion core of the `regex.exec` loop, structural on a fuel bound (a
match of the nonempty open/close tags consumes at least one character, so an
initial fuel of the string's length always suffices; on empty fuel the string
is empty and no match exists anyway). -/
def findTagWithTextGo (op cl target : Chars) : Nat → Chars → Option Chars
  | 0, _ => none
  | fuel + 1, s =>
    match findTag op cl s with
    | none => none
    | some (inner, rest) =>
      if trimC inner = target then some inner
      else findTagWithTextGo op cl target fuel rest

/-- The `while (regex.exec(...))` loop of `addHeadingIds`: successive
non-overlapping matches until one whose trimmed inner text equals the
target. -/
def findTagWithText (op cl target s : Chars) : Option Chars :=
  findTagWithTextGo op cl target s.length s

/-- The body of the `headings.forEach` in `addHeadingIds`: process one record
against the accumulated markup. -/
def addHeadingId (html : Chars) (h : Heading) : Chars :=
  match findTagWithText (openTag h.level) (closeTag h.level) (trimC h.text) html with
  | none => html
  | some inner =>
    replaceFirst (openTag h.level ++ inner ++ closeTag h.level)
      (openIdTag h.level h.id ++ inner ++ closeTag h.level) html

/-- `addHeadingIds(html, headings)`. -/
def addHeadingIds (html : Chars) (headings : List Heading) : Chars :=
  headings.foldl addHeadingId html

/-- The combined-mode qualification applied inside `convertToHtml` and
`convertToPdf` before TOC generation and injection: the record's text gets
`" (basename)"` appended and the id is regenerated from the qualified text
(`slugify` with `lower`/`strict`); the record used for the TOC and for
injection is this mutated one. -/
def qualifyHeading (file : Chars) (h : Heading) : Heading :=
  ⟨h.level, h.text ++ " (".data ++ basename file ++ ")".data,
    slugifyModel (h.text ++ " (".data ++ basename file ++ ")".data)⟩


/-! ## Decomposition of markup around one level's heading elements -/

/-- A decomposition of rendered markup around the heading elements of one
level: the text before the first element, then one (inner text, following
text) pair per element, in document order. -/
def assembleTags (op cl : Chars) : Chars → List (Chars × Chars) → Chars
  | p, [] => p
  | p, e :: rest => p ++ (op ++ (e.1 ++ (cl ++ assembleTags op cl e.2 rest)))

/-- Well-formedness of a text piece of the decomposition: the open tag does
not begin at any position inside it (the appended copy of the open tag makes
the condition insensitive to what actually follows the piece, because every
continuation reached below starts with `<` just as the open tag does). -/
def pieceOk (op seg : Chars) : Prop :=
  ∀ i, i < seg.length → op.isPrefixOf (seg.drop i ++ op) = false

/-- Well-formedness of an element's inner text: every character is matched by
`.`, and neither the close tag nor the open tag begins strictly inside it, so
the lazy `(.*?)` of the element captures exactly this text. -/
def innerOk (op cl inn : Chars) : Prop :=
  (∀ c ∈ inn, dotOk c = true) ∧
  (∀ i, i < inn.length → cl.isPrefixOf (inn.drop i ++ cl) = false) ∧
  (∀ i, i < inn.length → op.isPrefixOf (inn.drop i ++ cl) = false)

/-- Well-formedness of the element list of a decomposition. -/
def elemsOk (op cl : Chars) (elems : List (Chars × Chars)) : Prop :=
  ∀ e ∈ elems, innerOk op cl e.1 ∧ pieceOk op e.2

/-- The claim's selection rule: the inner text of the first listed element
whose trimmed inner text equals the target, if any. -/
def firstMatchInner (target : Chars) : List (Chars × Chars) → Option Chars
  | [] => none
  | e :: rest => if trimC e.1 = target then some e.1 else firstMatchInner target rest

/-- The claim's consumption rule for one record: the first element whose
trimmed inner text equals the target is marked — its open tag becomes the
id-carrying tag `opId`, so it stops being a heading element of the
decomposition and its markup merges into the surrounding text — while
everything else is unchanged; a record matching nothing changes nothing. -/
def consumeFirst (opId cl target : Chars) :
    Chars → List (Chars × Chars) → Chars × List (Chars × Chars)
  | p, [] => (p, [])
  | p, e :: rest =>
    if trimC e.1 = target then (p ++ (opId ++ (e.1 ++ (cl ++ e.2))), rest)
    else
      (p, (e.1, (consumeFirst opId cl target e.2 rest).1) ::
        (consumeFirst opId cl target e.2 rest).2)

/-- The claim's behaviour over an ordered record sequence: records are
processed in order, each consuming at most the first still-unconsumed element
whose trimmed inner text equals the record's stored trimmed text. -/
def consumeRecords (lv : Nat) : List Heading → Chars → List (Chars × Chars) →
    Chars × List (Chars × Chars)
  | [], p, elems => (p, elems)
  | r :: rs, p, elems =>
    consumeRecords lv rs
      (consumeFirst (openIdTag lv r.id) (closeTag lv) (trimC r.text) p elems).1
      (consumeFirst (openIdTag lv r.id) (closeTag lv) (trimC r.text) p elems).2

instance (op seg : Chars) : Decidable (pieceOk op seg) :=
  inferInstanceAs (Decidable (∀ i, i < seg.length → op.isPrefixOf (seg.drop i ++ op) = false))

instance (op cl inn : Chars) : Decidable (innerOk op cl inn) :=
  inferInstanceAs (Decidable ((∀ c ∈ inn, dotOk c = true) ∧
    (∀ i, i < inn.length → cl.isPrefixOf (inn.drop i ++ cl) = false) ∧
    (∀ i, i < inn.length → op.isPrefixOf (inn.drop i ++ cl) = false)))

instance (op cl : Chars) (elems : List (Chars × Chars)) : Decidable (elemsOk op cl elems) :=
  inferInstanceAs (Decidable (∀ e ∈ elems, innerOk op cl e.1 ∧ pieceOk op e.2))

/-! ## Command-line outcome (bottom of `index.cjs`) -/

/-- What the end of the script does for a run. -/
inductive MainOutcome where
  | exitNoFiles
  | exitBadPaper
  | runHtml
  | runPdf
  | invalidFormat
deriving DecidableEq

/-- `["A4", "Letter", "Legal"]`. -/
def validPaperSizes : List Chars := ["A4".data, "Letter".data, "Legal".data]

/-- The decision sequence after option parsing: exit 1 when the traversal
found no markdown files; else, when the format is `pdf`, exit 1 on a paper
size outside the valid list; else run the conversion for `html`/`pdf`, or
print an error (without a nonzero exit) for any other format. -/
def mainDecision (fileCount : Nat) (format paper : Chars) : MainOutcome :=
  if fileCount = 0 then .exitNoFiles
  else if format = "pdf".data ∧ paper ∉ validPaperSizes then .exitBadPaper
  else if format = "html".data then .runHtml
  else if format = "pdf".data then .runPdf
  else .invalidFormat

/-- Outcomes that call `process.exit(1)`. -/
def exitsNonZero : MainOutcome → Bool
  | .exitNoFiles => true
  | .exitBadPaper => true
  | _ => false

/-- Outcomes that process output units. -/
def processesOutput : MainOutcome → Bool
  | .runHtml => true
  | .runPdf => true
  | _ => false

/-! ## Shared string lemmas -/

theorem replaceFirst_skip (pat repl a s : Chars)
    (h : ∀ i, i < a.length → pat.isPrefixOf ((a ++ s).drop i) = false) :
    replaceFirst pat repl (a ++ s) = a ++ replaceFirst pat repl s := by
  induction a with
  | nil => simp
  | cons c a ih =>
    have h0 := h 0 (by simp)
    simp only [List.drop_zero, List.cons_append] at h0
    show replaceFirst pat repl (c :: (a ++ s)) = c :: (a ++ replaceFirst pat repl s)
    rw [replaceFirst, if_neg (by simp [h0])]
    refine congrArg (c :: ·) (ih fun i hi => ?_)
    have := h (i + 1) (by simpa using Nat.succ_lt_succ hi)
    simpa [List.drop_succ_cons] using this

theorem replaceFirst_hit (pat repl s : Chars) (hp : pat ≠ []) :
    replaceFirst pat repl (pat ++ s) = repl ++ s := by
  cases pat with
  | nil => exact absurd rfl hp
  | cons c p =>
    have hpre : (c :: p).isPrefixOf ((c :: p) ++ s) = true :=
      List.isPrefixOf_iff_prefix.mpr (List.prefix_append _ _)
    have hdrop : ((c :: p) ++ s).drop (c :: p).length = s := List.drop_left _ _
    show replaceFirst (c :: p) repl (c :: (p ++ s)) = repl ++ s
    rw [replaceFirst]
    simp only [List.cons_append] at hpre hdrop
    rw [if_pos hpre, hdrop]

theorem replaceAllGo_congr (pat repl : Chars) :
    ∀ fuel fuel' (s : Chars), s.length ≤ fuel → s.length ≤ fuel' →
      replaceAllGo pat repl fuel s = replaceAllGo pat repl fuel' s := by
  intro fuel
  induction fuel with
  | zero =>
    intro fuel' s hs _
    have : s = [] := List.length_eq_zero.mp (by omega)
    subst this
    cases fuel' <;> rfl
  | succ f ih =>
    intro fuel' s hs hs'
    cases s with
    | nil => cases fuel' <;> rfl
    | cons c cs =>
      cases fuel' with
      | zero => simp at hs'
      | succ f' =>
        simp only [List.length_cons] at hs hs'
        show replaceAllGo pat repl (f + 1) (c :: cs) = replaceAllGo pat repl (f' + 1) (c :: cs)
        rw [replaceAllGo, replaceAllGo]
        by_cases hc : pat.isPrefixOf (c :: cs) ∧ pat ≠ []
        · rw [if_pos hc, if_pos hc]
          have h1 : 0 < pat.length := List.length_pos.mpr hc.2
          refine congrArg (repl ++ ·) (ih f' _ ?_ ?_) <;>
            (simp only [List.length_drop, List.length_cons]; omega)
        · rw [if_neg hc, if_neg hc]
          exact congrArg (c :: ·) (ih f' cs (by omega) (by omega))

theorem replaceAllGo_skip (pat repl : Chars) :
    ∀ (a s : Chars) (fuel : Nat), (a ++ s).length ≤ fuel →
      (∀ i, i < a.length → pat.isPrefixOf ((a ++ s).drop i) = false) →
      replaceAllGo pat repl fuel (a ++ s) = a ++ replaceAllG pat repl s := by
  intro a
  induction a with
  | nil =>
    intro s fuel h1 _
    simpa using replaceAllGo_congr pat repl fuel s.length s (by simpa using h1) le_rfl
  | cons c a ih =>
    intro s fuel h1 h2
    cases fuel with
    | zero => simp at h1
    | succ f =>
      have h0 := h2 0 (by simp)
      simp only [List.drop_zero, List.cons_append] at h0
      show replaceAllGo pat repl (f + 1) (c :: (a ++ s)) = c :: (a ++ replaceAllG pat repl s)
      rw [replaceAllGo, if_neg (by simp [h0])]
      refine congrArg (c :: ·) (ih s f ?_ fun i hi => ?_)
      · simp only [List.length_cons, List.length_append] at h1 ⊢
        omega
      · have := h2 (i + 1) (by simpa using Nat.succ_lt_succ hi)
        simpa [List.drop_succ_cons] using this

theorem replaceAllG_skip (pat repl a s : Chars)
    (h : ∀ i, i < a.length → pat.isPrefixOf ((a ++ s).drop i) = false) :
    replaceAllG pat repl (a ++ s) = a ++ replaceAllG pat repl s :=
  replaceAllGo_skip pat repl a s (a ++ s).length le_rfl h

theorem replaceAllG_hit (pat repl s : Chars) (hp : pat ≠ []) :
    replaceAllG pat repl (pat ++ s) = repl ++ replaceAllG pat repl s := by
  cases pat with
  | nil => exact absurd rfl hp
  | cons c p =>
    have hpre : (c :: p).isPrefixOf ((c :: p) ++ s) = true :=
      List.isPrefixOf_iff_prefix.mpr (List.prefix_append _ _)
    have hdrop : ((c :: p) ++ s).drop (c :: p).length = s := List.drop_left _ _
    simp only [List.cons_append] at hpre hdrop
    show replaceAllGo (c :: p) repl (c :: (p ++ s)).length (c :: (p ++ s)) =
      repl ++ replaceAllG (c :: p) repl s
    simp only [List.length_cons]
    rw [replaceAllGo, if_pos ⟨hpre, by simp⟩, hdrop]
    refine congrArg (repl ++ ·) ?_
    exact replaceAllGo_congr (c :: p) repl _ _ s
      (by simp only [List.length_append]; omega) le_rfl

theorem replaceAllG_noOcc (pat repl s : Chars)
    (h : ∀ i, i < s.length → pat.isPrefixOf (s.drop i) = false) :
    replaceAllG pat repl s = s := by
  have h2 := replaceAllG_skip pat repl s [] (by simpa using h)
  simpa [replaceAllG, replaceAllGo] using h2

theorem foldl_append_eq_flatten {α : Type} (f : α → Chars) (hs : List α)
    (init : Chars) :
    hs.foldl (fun acc h => acc ++ f h) init = init ++ (hs.map f).flatten := by
  induction hs generalizing init with
  | nil => simp
  | cons h hs ih => simp [ih, List.append_assoc]

/-! ## Lemmas for the heading-line regex -/

theorem trimC_cons_ws (c : Char) (s : Chars) (h : isWs c = true) :
    trimC (c :: s) = trimC s := by
  simp [trimC, List.dropWhile_cons, h]

theorem hashTake_eq : ∀ (k : Nat) (l : Chars),
    hashTake k l = if l.take k = List.replicate k '#' then some (l.drop k) else none := by
  intro k
  induction k with
  | zero => intro l; simp [hashTake]
  | succ k ih =>
    intro l
    cases l with
    | nil => simp [hashTake, List.replicate_succ]
    | cons c cs =>
      by_cases hc : c = '#'
      · simp [hashTake, hc, ih, List.replicate_succ, List.drop_succ_cons]
      · simp [hashTake, hc, List.replicate_succ]

theorem take_eq_replicate_hash_iff : ∀ (k : Nat) (l : Chars),
    l.take k = List.replicate k '#' ↔ k ≤ (l.takeWhile (· = '#')).length := by
  intro k
  induction k with
  | zero => intro l; simp
  | succ k ih =>
    intro l
    cases l with
    | nil => simp [List.replicate_succ]
    | cons c cs =>
      by_cases hc : c = '#'
      · simp [List.takeWhile_cons, hc, List.replicate_succ, ih]
      · simp [List.takeWhile_cons, hc, List.replicate_succ]

theorem drop_head_hash : ∀ (l : Chars) (k : Nat),
    k < (l.takeWhile (· = '#')).length → (l.drop k).head? = some '#' := by
  intro l
  induction l with
  | nil => intro k hk; simp at hk
  | cons c cs ih =>
    intro k hk
    by_cases hc : c = '#'
    · cases k with
      | zero => simpa using hc
      | succ k =>
        rw [List.drop_succ_cons]
        apply ih
        simp [List.takeWhile_cons, hc] at hk
        omega
    · simp [List.takeWhile_cons, hc] at hk

theorem wsText_drop_hash (l : Chars) (k : Nat)
    (h : (l.drop k).head? = some '#') : wsText (l.drop k) = none := by
  cases hd : l.drop k with
  | nil => rw [hd] at h; simp at h
  | cons c cs =>
    rw [hd] at h
    simp only [List.head?_cons, Option.some.injEq] at h
    subst h
    rw [wsText, if_neg (by simp [isWs])]

theorem tryHashes_eq : ∀ (k : Nat) (l : Chars),
    tryHashes k l =
      if 1 ≤ (l.takeWhile (· = '#')).length ∧ (l.takeWhile (· = '#')).length ≤ k then
        (wsText (l.drop ((l.takeWhile (· = '#')).length))).map
          (fun t => ((l.takeWhile (· = '#')).length, t))
      else none := by
  intro k
  induction k with
  | zero =>
    intro l
    rw [tryHashes, if_neg (by omega)]
  | succ k ih =>
    intro l
    by_cases h1 : k + 1 ≤ (l.takeWhile (· = '#')).length
    · have hp : l.take (k + 1) = List.replicate (k + 1) '#' :=
        (take_eq_replicate_hash_iff (k + 1) l).mpr h1
      rw [tryHashes, hashTake_eq, if_pos hp]
      rcases Nat.lt_or_ge (k + 1) ((l.takeWhile (· = '#')).length) with hlt | hge
      · have hw : wsText (l.drop (k + 1)) = none :=
          wsText_drop_hash l (k + 1) (drop_head_hash l (k + 1) hlt)
        show (match wsText (l.drop (k + 1)) with
          | some t => some (k + 1, t)
          | none => tryHashes k l) = _
        rw [hw]
        show tryHashes k l = _
        rw [ih, if_neg (by omega), if_neg (by omega)]
      · have he : (l.takeWhile (· = '#')).length = k + 1 := by omega
        rw [he, if_pos (by omega)]
        show (match wsText (l.drop (k + 1)) with
          | some t => some (k + 1, t)
          | none => tryHashes k l) = _
        cases hw : wsText (l.drop (k + 1)) with
        | some t => simp [hw]
        | none =>
          show tryHashes k l = _
          rw [ih, if_neg (by omega)]
          simp
    · have hp : ¬ l.take (k + 1) = List.replicate (k + 1) '#' :=
        fun hc => h1 ((take_eq_replicate_hash_iff (k + 1) l).mp hc)
      rw [tryHashes, hashTake_eq, if_neg hp, ih]
      by_cases hc : 1 ≤ (l.takeWhile (· = '#')).length ∧ (l.takeWhile (· = '#')).length ≤ k
      · rw [if_pos hc, if_pos ⟨hc.1, by omega⟩]
      · rw [if_neg hc, if_neg (fun hq => hc ⟨hq.1, by omega⟩)]

theorem wsTextGo_some : ∀ (cs : Chars), cs ≠ [] → (∀ c ∈ cs, dotOk c = true) →
    ∃ t, wsTextGo cs = some t ∧ trimC t = trimC cs := by
  intro cs
  induction cs with
  | nil => intro h _; exact absurd rfl h
  | cons c cs ih =>
    intro _ hdot
    by_cases hw : isWs c = true
    · by_cases hcs : cs = []
      · subst hcs
        refine ⟨[c], ?_, rfl⟩
        rw [wsTextGo, if_pos hw]
        show (if [c].all dotOk then some [c] else none) = some [c]
        rw [if_pos (by simp [hdot c (by simp)])]
      · obtain ⟨t, ht, htr⟩ := ih hcs (fun x hx => hdot x (by simp [hx]))
        refine ⟨t, ?_, ?_⟩
        · rw [wsTextGo, if_pos hw, ht]
        · rw [htr, trimC_cons_ws c cs hw]
    · refine ⟨c :: cs, ?_, rfl⟩
      have hall : (c :: cs).all dotOk = true := by
        rw [List.all_eq_true]; exact hdot
      rw [wsTextGo, if_neg hw, if_pos hall]

theorem wsText_eq_spec (r : Chars) (hdot : ∀ c ∈ r, dotOk c = true) :
    (wsText r).map trimC =
      if r.head?.any isWs ∧ 2 ≤ r.length then some (trimC r) else none := by
  cases r with
  | nil => rw [wsText, if_neg (by simp)]; rfl
  | cons c cs =>
    by_cases hw : isWs c = true
    · cases hcs : cs with
      | nil =>
        subst hcs
        rw [wsText, if_pos hw]
        rw [if_neg (by simp)]
        rfl
      | cons d ds =>
        obtain ⟨t, ht, htr⟩ := wsTextGo_some cs (by simp [hcs])
          (fun x hx => hdot x (by simp [hx]))
        rw [wsText, if_pos hw, ← hcs]
        rw [ht]
        rw [if_pos ⟨by simp [hw], by simp [hcs]⟩]
        show some (trimC t) = some (trimC (c :: cs))
        rw [htr, trimC_cons_ws c cs hw]
    · rw [wsText, if_neg hw, if_neg (fun hc => hw (by simpa using hc.1))]
      rfl

theorem matchHeadingLine_eq_spec (l : Chars) (hdot : ∀ c ∈ l, dotOk c = true) :
    (matchHeadingLine l).map (fun p => (p.1, trimC p.2)) = headingLineSpecA l := by
  show (tryHashes 6 l).map (fun p => (p.1, trimC p.2)) = headingLineSpecA l
  rw [tryHashes_eq]
  simp only [headingLineSpecA]
  by_cases h16 : 1 ≤ (l.takeWhile (· = '#')).length ∧ (l.takeWhile (· = '#')).length ≤ 6
  · rw [if_pos h16]
    have hr := wsText_eq_spec (l.drop ((l.takeWhile (· = '#')).length))
      (fun c hc => hdot c (List.drop_subset _ _ hc))
    by_cases hc2 : (l.drop ((l.takeWhile (· = '#')).length)).head?.any isWs
        ∧ 2 ≤ (l.drop ((l.takeWhile (· = '#')).length)).length
    · rw [if_pos hc2] at hr
      rw [if_pos ⟨h16.1, h16.2, hc2.1, hc2.2⟩]
      cases ht : wsText (l.drop ((l.takeWhile (· = '#')).length)) with
      | none => rw [ht] at hr; simp at hr
      | some t =>
        rw [ht] at hr
        simp only [Option.map] at hr ⊢
        simp only [Option.some.injEq] at hr
        rw [hr]
    · rw [if_neg hc2] at hr
      rw [if_neg (fun hq => hc2 ⟨hq.2.2.1, hq.2.2.2⟩)]
      cases ht : wsText (l.drop ((l.takeWhile (· = '#')).length)) with
      | none => rfl
      | some t => rw [ht] at hr; simp at hr
  · rw [if_neg h16, if_neg (fun hq => h16 ⟨hq.1, hq.2.1⟩)]
    rfl

theorem headingsOfLines_map : ∀ (ls : List Chars),
    (∀ l ∈ ls, ∀ c ∈ l, dotOk c = true) →
    (headingsOfLines ls).map (fun r => (r.level, r.text)) =
      ls.filterMap headingLineSpecA := by
  intro ls
  induction ls with
  | nil => intro _; rfl
  | cons l ls ih =>
    intro hd
    have hline := matchHeadingLine_eq_spec l (hd l (by simp))
    rw [List.filterMap_cons]
    cases hm : matchHeadingLine l with
    | none =>
      rw [hm] at hline
      simp only [Option.map_none'] at hline
      simp only [headingsOfLines, hm, ← hline]
      exact ih (fun x hx => hd x (by simp [hx]))
    | some p =>
      obtain ⟨lv, t⟩ := p
      rw [hm] at hline
      simp only [Option.map_some'] at hline
      simp only [headingsOfLines, hm, ← hline, List.map_cons]
      rw [ih (fun x hx => hd x (by simp [hx]))]

theorem splitLines_ne_nil : ∀ (content : Chars), splitLines content ≠ [] := by
  intro content
  induction content with
  | nil => simp [splitLines]
  | cons c cs ih =>
    by_cases hc : c = '\n'
    · simp [splitLines, hc]
    · rw [splitLines, if_neg hc]
      cases h : splitLines cs <;> simp

theorem splitLines_chars : ∀ (content l : Chars), l ∈ splitLines content →
    ∀ c ∈ l, c ≠ '\n' ∧ c ∈ content := by
  intro content
  induction content with
  | nil =>
    intro l hl c hc
    simp [splitLines] at hl
    subst hl
    simp at hc
  | cons a cs ih =>
    intro l hl c hc
    by_cases ha : a = '\n'
    · rw [splitLines, if_pos ha] at hl
      rcases List.mem_cons.mp hl with h1 | h1
      · subst h1; simp at hc
      · obtain ⟨hne, hmem⟩ := ih l h1 c hc
        exact ⟨hne, by simp [hmem]⟩
    · rw [splitLines, if_neg ha] at hl
      cases hsp : splitLines cs with
      | nil => exact absurd hsp (splitLines_ne_nil cs)
      | cons l0 ls0 =>
        rw [hsp] at hl
        rcases List.mem_cons.mp hl with h1 | h1
        · subst h1
          rcases List.mem_cons.mp hc with h2 | h2
          · subst h2; exact ⟨ha, by simp⟩
          · obtain ⟨hne, hmem⟩ := ih l0 (by simp [hsp]) c h2
            exact ⟨hne, by simp [hmem]⟩
        · obtain ⟨hne, hmem⟩ := ih l (by simp [hsp, h1]) c hc
          exact ⟨hne, by simp [hmem]⟩

/-! ## Lemmas for the injection scan -/

theorem lazyInner_exact : ∀ (inner cl rest : Chars), cl ≠ [] →
    (∀ c ∈ inner, dotOk c = true) →
    (∀ i, i < inner.length → cl.isPrefixOf ((inner ++ (cl ++ rest)).drop i) = false) →
    lazyInner cl (inner ++ (cl ++ rest)) = some (inner, rest) := by
  intro inner
  induction inner with
  | nil =>
    intro cl rest hcl _ _
    cases cl with
    | nil => exact absurd rfl hcl
    | cons c p =>
      have hpre : (c :: p).isPrefixOf ((c :: p) ++ rest) = true :=
        List.isPrefixOf_iff_prefix.mpr (List.prefix_append _ _)
      have hdrop : ((c :: p) ++ rest).drop (c :: p).length = rest := List.drop_left _ _
      simp only [List.cons_append] at hpre hdrop
      show lazyInner (c :: p) (c :: (p ++ rest)) = some ([], rest)
      rw [lazyInner, if_pos hpre, hdrop]
  | cons d inner ih =>
    intro cl rest hcl hdot hno
    have h0 := hno 0 (by simp)
    simp only [List.drop_zero, List.cons_append] at h0
    show lazyInner cl (d :: (inner ++ (cl ++ rest))) = some (d :: inner, rest)
    rw [lazyInner, if_neg (by simp [h0]), if_pos (hdot d (by simp))]
    rw [ih cl rest hcl (fun c hc => hdot c (by simp [hc])) (fun i hi => by
      have := hno (i + 1) (by simpa using Nat.succ_lt_succ hi)
      simpa [List.drop_succ_cons] using this)]
    rfl

theorem findTag_skip : ∀ (a op cl s : Chars),
    (∀ i, i < a.length → op.isPrefixOf ((a ++ s).drop i) = false) →
    findTag op cl (a ++ s) = findTag op cl s := by
  intro a
  induction a with
  | nil => intro op cl s _; rfl
  | cons c a ih =>
    intro op cl s hno
    have h0 := hno 0 (by simp)
    simp only [List.drop_zero, List.cons_append] at h0
    show findTag op cl (c :: (a ++ s)) = findTag op cl s
    rw [findTag, if_neg (by simp [h0])]
    exact ih op cl s (fun i hi => by
      have := hno (i + 1) (by simpa using Nat.succ_lt_succ hi)
      simpa [List.drop_succ_cons] using this)

theorem findTag_hit (op cl inner rest : Chars) (hop : op ≠ []) (hcl : cl ≠ [])
    (hdot : ∀ c ∈ inner, dotOk c = true)
    (hno : ∀ i, i < inner.length → cl.isPrefixOf ((inner ++ (cl ++ rest)).drop i) = false) :
    findTag op cl (op ++ (inner ++ (cl ++ rest))) = some (inner, rest) := by
  cases op with
  | nil => exact absurd rfl hop
  | cons c p =>
    have hpre : (c :: p).isPrefixOf ((c :: p) ++ (inner ++ (cl ++ rest))) = true :=
      List.isPrefixOf_iff_prefix.mpr (List.prefix_append _ _)
    have hdrop : ((c :: p) ++ (inner ++ (cl ++ rest))).drop (c :: p).length =
      inner ++ (cl ++ rest) := List.drop_left _ _
    simp only [List.cons_append] at hpre hdrop
    show findTag (c :: p) cl (c :: (p ++ (inner ++ (cl ++ rest)))) = some (inner, rest)
    rw [findTag, if_pos hpre, hdrop, lazyInner_exact inner cl rest hcl hdot hno]

theorem findTag_none : ∀ (s op cl : Chars),
    (∀ i, i < s.length → op.isPrefixOf (s.drop i) = false) →
    findTag op cl s = none := by
  intro s
  induction s with
  | nil => intro op cl _; rfl
  | cons c cs ih =>
    intro op cl hno
    have h0 := hno 0 (by simp)
    simp only [List.drop_zero] at h0
    rw [findTag, if_neg (by simp [h0])]
    exact ih op cl (fun i hi => by
      have := hno (i + 1) (by simpa using Nat.succ_lt_succ hi)
      simpa [List.drop_succ_cons] using this)

theorem openTag_ne_nil (lv : Nat) : openTag lv ≠ [] := by
  simp [openTag]

theorem closeTag_ne_nil (lv : Nat) : closeTag lv ≠ [] := by
  simp [closeTag]

/-! ## Prefix toolkit -/

theorem isPrefixOf_trunc (p a x : Chars) (h : p.length ≤ a.length) :
    p.isPrefixOf (a ++ x) = p.isPrefixOf a := by
  by_cases hp : p <+: a
  · rw [ List.isPrefixOf_iff_prefix.mpr hp,
      List.isPrefixOf_iff_prefix.mpr (hp.trans ( List.prefix_append a x))]
  · have h1 : p.isPrefixOf a = false := by
      rw [← Bool.not_eq_true]
      intro hc
      exact hp ( List.isPrefixOf_iff_prefix.mp hc)
    have h2 : p.isPrefixOf (a ++ x) = false := by
      rw [← Bool.not_eq_true]
      intro hc
      have hpp := List.isPrefixOf_iff_prefix.mp hc
      have heq := List.prefix_iff_eq_take.mp hpp
      rw [List.take_append_eq_append_take, Nat.sub_eq_zero_of_le h, List.take_zero,
        List.append_nil] at heq
      rw [heq] at hp
      exact hp ( List.take_prefix _ _)
    rw [h1, h2]

theorem isPrefixOf_extend (p a x : Chars) (h : p.isPrefixOf a = true) :
    p.isPrefixOf (a ++ x) = true :=
  List.isPrefixOf_iff_prefix.mpr
    (( List.isPrefixOf_iff_prefix.mp h).trans ( List.prefix_append a x))

theorem isPrefixOf_false_mono (p q t : Chars) (hpq : p <+: q)
    (h : p.isPrefixOf t = false) : q.isPrefixOf t = false := by
  rw [← Bool.not_eq_true] at h ⊢
  intro hc
  exact h ( List.isPrefixOf_iff_prefix.mpr (hpq.trans ( List.isPrefixOf_iff_prefix.mp hc)))

theorem isPrefixOf_drop_both (p t : Chars) (n : Nat) (h : p.isPrefixOf t = true) :
    (p.drop n).isPrefixOf (t.drop n) = true := by
  rw [ List.isPrefixOf_iff_prefix] at h ⊢
  obtain ⟨u, rfl⟩ := h
  rw [List.drop_append_eq_append_drop]
  exact List.prefix_append _ _

theorem cons_isPrefixOf_head {c d : Char} {pt w : Chars}
    (h : (c :: pt).isPrefixOf (d :: w) = true) : c = d := by
  rw [ List.isPrefixOf_iff_prefix] at h
  exact (List.cons_prefix_cons.mp h).1

/-- The tail after one character of a clean text piece, seen through drops. -/
theorem mem_tail_of_drop {x : Chars} {i : Nat} {c : Char} {w : Chars}
    (h0 : 0 < i) (hd : x.drop i = c :: w) : c ∈ x.drop 1 := by
  have hx : x.drop i = (x.drop 1).drop (i - 1) := by
    rw [List.drop_drop]
    congr 1
    omega
  have hmem : c ∈ x.drop i := by
    rw [hd]
    exact List.mem_cons_self c w
  rw [hx] at hmem
  exact List.drop_subset _ _ hmem

/-- Inside a clean text piece the open tag starts nowhere, whatever follows,
as long as what follows begins with `<` and the open tag has `<` only at its
head. -/
theorem pieceOk_noStart (op x cont : Chars) (hx : pieceOk op x)
    (hoplt : ∀ c ∈ op.drop 1, c ≠ '<') (hcont : ∃ w, cont = '<' :: w) :
    ∀ i, i < x.length → op.isPrefixOf (x.drop i ++ cont) = false := by
  intro i hi
  rcases Nat.lt_or_ge (x.drop i).length op.length with hlen | hlen
  · rw [← Bool.not_eq_true]
    intro hc
    obtain ⟨w, rfl⟩ := hcont
    have hdrop := isPrefixOf_drop_both op _ (x.drop i).length hc
    rw [List.drop_append_eq_append_drop, List.drop_length, Nat.sub_self, List.drop_zero,
      List.nil_append] at hdrop
    have hlen1 : 1 ≤ (x.drop i).length := by
      rw [List.length_drop]
      omega
    cases hop : op.drop (x.drop i).length with
    | nil => exact absurd (List.drop_eq_nil_iff_le.mp hop) (by omega)
    | cons c cr =>
      rw [hop] at hdrop
      have hcmem : c ∈ op.drop 1 := mem_tail_of_drop hlen1 hop
      exact hoplt c hcmem (cons_isPrefixOf_head hdrop)
  · rw [isPrefixOf_trunc op (x.drop i) cont hlen]
    have hcond := hx i hi
    rw [isPrefixOf_trunc op (x.drop i) op hlen] at hcond
    exact hcond

/-- No start of a `<`-headed pattern strictly inside a block whose characters
after the head all differ from `<`. -/
theorem ltFree_noStart (p x cont : Chars) (hp : ∃ w, p = '<' :: w)
    (hxlt : ∀ c ∈ x.drop 1, c ≠ '<') :
    ∀ i, 0 < i → i < x.length → p.isPrefixOf (x.drop i ++ cont) = false := by
  intro i h0 hi
  rw [← Bool.not_eq_true]
  intro hc
  obtain ⟨w, rfl⟩ := hp
  cases hd : x.drop i with
  | nil => exact absurd (List.drop_eq_nil_iff_le.mp hd) (by omega)
  | cons c cr =>
    rw [hd, List.cons_append] at hc
    exact hxlt c (mem_tail_of_drop h0 hd) (cons_isPrefixOf_head hc).symm

/-- Lifting a per-position condition stated with one tag of continuation to a
full continuation that starts with that tag. -/
theorem noStart_cont (p x q Z : Chars) (hle : p.length ≤ q.length)
    (h : ∀ i, i < x.length → p.isPrefixOf (x.drop i ++ q) = false) :
    ∀ i, i < x.length → p.isPrefixOf ((x ++ (q ++ Z)).drop i) = false := by
  intro i hi
  rw [List.drop_append_eq_append_drop, Nat.sub_eq_zero_of_le (Nat.le_of_lt hi),
    List.drop_zero, ← List.append_assoc]
  rw [isPrefixOf_trunc p (x.drop i ++ q) Z (by
    rw [List.length_append]
    omega)]
  exact h i hi

/-- Gluing clean pieces. -/
theorem pieceOk_append (op A B : Chars)
    (hA : ∀ i, i < A.length → op.isPrefixOf (A.drop i ++ (B ++ op)) = false)
    (hB : pieceOk op B) : pieceOk op (A ++ B) := by
  intro i hi
  rw [List.length_append] at hi
  rcases Nat.lt_or_ge i A.length with h | h
  · rw [List.drop_append_eq_append_drop, Nat.sub_eq_zero_of_le (Nat.le_of_lt h),
      List.drop_zero, List.append_assoc]
    exact hA i h
  · rw [List.drop_append_eq_append_drop, List.drop_eq_nil_of_le h, List.nil_append]
    exact hB (i - A.length) (by omega)

/-! ## Character facts about the tag literals -/

theorem digitChar_ne_lt (m : Nat) : Nat.digitChar m ≠ '<' := by
  by_cases h : m < 16
  · interval_cases m <;> decide
  · rw [Nat.digitChar.eq_def]
    repeat rw [if_neg (by omega)]
    decide

theorem toDigitsCore_ne_lt : ∀ (fuel n : Nat) (ds : List Char),
    (∀ c ∈ ds, c ≠ '<') → ∀ c ∈ Nat.toDigitsCore 10 fuel n ds, c ≠ '<' := by
  intro fuel
  induction fuel with
  | zero => intro n ds h; exact h
  | succ f ih =>
    intro n ds h
    rw [Nat.toDigitsCore]
    split
    · intro c hc
      rcases List.mem_cons.mp hc with h1 | h1
      · exact h1 ▸ digitChar_ne_lt _
      · exact h c h1
    · refine ih _ _ (fun c hc => ?_)
      rcases List.mem_cons.mp hc with h1 | h1
      · exact h1 ▸ digitChar_ne_lt _
      · exact h c h1

/-- The decimal digits of a level number never contain `<`. -/
theorem repr_lt_free (n : Nat) : ∀ c ∈ (Nat.repr n).data, c ≠ '<' := by
  show ∀ c ∈ (Nat.toDigits 10 n).asString.data, c ≠ '<'
  show ∀ c ∈ Nat.toDigitsCore 10 (n + 1) n [], c ≠ '<'
  exact toDigitsCore_ne_lt _ _ _ (by simp)

theorem openTag_shape (lv : Nat) :
    openTag lv = '<' :: ('h' :: ((Nat.repr lv).data ++ ['>'])) := by
  rw [openTag, List.append_assoc]
  rfl

theorem closeTag_shape (lv : Nat) :
    closeTag lv = '<' :: ('/' :: ('h' :: ((Nat.repr lv).data ++ ['>']))) := by
  rw [closeTag, List.append_assoc]
  rfl

theorem openIdTag_shape (lv : Nat) (a : Chars) :
    openIdTag lv a = '<' :: ('h' :: ((Nat.repr lv).data ++
      (' ' :: ('i' :: ('d' :: ('=' :: ('"' :: (a ++ ['"', '>'])))))))) := by
  rw [openIdTag, List.append_assoc, List.append_assoc, List.append_assoc]
  rfl

theorem openTag_lt_tail (lv : Nat) : ∀ c ∈ (openTag lv).drop 1, c ≠ '<' := by
  rw [openTag_shape]
  intro c hc
  rw [List.drop_succ_cons, List.drop_zero] at hc
  rcases List.mem_cons.mp hc with h1 | h1
  · rw [h1]; decide
  rcases List.mem_append.mp h1 with h2 | h2
  · exact repr_lt_free lv c h2
  · rw [List.mem_singleton.mp h2]; decide

theorem closeTag_lt_tail (lv : Nat) : ∀ c ∈ (closeTag lv).drop 1, c ≠ '<' := by
  rw [closeTag_shape]
  intro c hc
  rw [List.drop_succ_cons, List.drop_zero] at hc
  rcases List.mem_cons.mp hc with h1 | h1
  · rw [h1]; decide
  rcases List.mem_cons.mp h1 with h2 | h2
  · rw [h2]; decide
  rcases List.mem_append.mp h2 with h3 | h3
  · exact repr_lt_free lv c h3
  · rw [List.mem_singleton.mp h3]; decide

theorem openIdTag_lt_tail (lv : Nat) (a : Chars) (ha : ∀ c ∈ a, c ≠ '<') :
    ∀ c ∈ (openIdTag lv a).drop 1, c ≠ '<' := by
  rw [openIdTag_shape]
  intro c hc
  rw [List.drop_succ_cons, List.drop_zero] at hc
  rcases List.mem_cons.mp hc with h1 | h1
  · rw [h1]; decide
  rcases List.mem_append.mp h1 with h2 | h2
  · exact repr_lt_free lv c h2
  rcases List.mem_cons.mp h2 with h3 | h3
  · rw [h3]; decide
  rcases List.mem_cons.mp h3 with h4 | h4
  · rw [h4]; decide
  rcases List.mem_cons.mp h4 with h5 | h5
  · rw [h5]; decide
  rcases List.mem_cons.mp h5 with h6 | h6
  · rw [h6]; decide
  rcases List.mem_cons.mp h6 with h7 | h7
  · rw [h7]; decide
  rcases List.mem_append.mp h7 with h8 | h8
  · exact ha c h8
  rcases List.mem_cons.mp h8 with h9 | h9
  · rw [h9]; decide
  · rw [List.mem_singleton.mp h9]; decide

theorem openTag_length_le (lv : Nat) : (openTag lv).length ≤ (closeTag lv).length := by
  rw [openTag_shape, closeTag_shape]
  simp

theorem op_not_prefix_cl (lv : Nat) (X : Chars) :
    (openTag lv).isPrefixOf (closeTag lv ++ X) = false := by
  rw [openTag_shape, closeTag_shape, ← Bool.not_eq_true]
  intro hc
  have hp := List.isPrefixOf_iff_prefix.mp hc
  rw [List.cons_append, List.cons_append] at hp
  have h2 := (List.cons_prefix_cons.mp hp).2
  exact absurd (List.cons_prefix_cons.mp h2).1 (by decide)

theorem op_not_prefix_opId (lv : Nat) (a X : Chars) :
    (openTag lv).isPrefixOf (openIdTag lv a ++ X) = false := by
  rw [openTag_shape, openIdTag_shape, ← Bool.not_eq_true]
  intro hc
  have hp := List.isPrefixOf_iff_prefix.mp hc
  rw [List.cons_append, List.cons_append, List.append_assoc] at hp
  have h2 := (List.cons_prefix_cons.mp hp).2
  have h3 := (List.cons_prefix_cons.mp h2).2
  have h4 := (List.prefix_append_right_inj (Nat.repr lv).data).mp h3
  rw [List.cons_append] at h4
  exact absurd (List.cons_prefix_cons.mp h4).1 (by decide)

theorem openTag_pos (lv : Nat) : 0 < (openTag lv).length := by
  rw [openTag_shape]
  simp

/-- A full matched element `op ++ inn ++ cl` cannot begin at the open tag of
an element whose inner text differs, when neither inner text lets the close
tag start strictly inside it and the close tag has `<` only at its head. -/
theorem patStart_elem_false (op cl inn innE S : Chars)
    (hclshape : ∃ w, cl = '<' :: w)
    (hcllt : ∀ c ∈ cl.drop 1, c ≠ '<')
    (hne : inn ≠ innE)
    (hInnE : ∀ i, i < innE.length → cl.isPrefixOf (innE.drop i ++ cl) = false)
    (hInn : ∀ i, i < inn.length → cl.isPrefixOf (inn.drop i ++ cl) = false) :
    ((op ++ inn) ++ cl).isPrefixOf (op ++ (innE ++ (cl ++ S))) = false := by
  rw [← Bool.not_eq_true]
  intro hc
  have hp := List.isPrefixOf_iff_prefix.mp hc
  rw [List.append_assoc] at hp
  have hp2 : inn ++ cl <+: innE ++ (cl ++ S) := (List.prefix_append_right_inj op).mp hp
  rcases Nat.lt_trichotomy inn.length innE.length with hlt | heq | hgt
  · have hdrop := hp2.drop inn.length
    rw [List.drop_append_eq_append_drop, List.drop_length, Nat.sub_self, List.drop_zero,
      List.nil_append] at hdrop
    rw [List.drop_append_eq_append_drop, Nat.sub_eq_zero_of_le (Nat.le_of_lt hlt),
      List.drop_zero] at hdrop
    have hpref : cl.isPrefixOf ((innE.drop inn.length ++ cl) ++ S) = true := by
      rw [List.append_assoc]
      exact List.isPrefixOf_iff_prefix.mpr hdrop
    rw [isPrefixOf_trunc cl (innE.drop inn.length ++ cl) S (by
      rw [List.length_append]
      omega)] at hpref
    rw [hInnE inn.length hlt] at hpref
    exact Bool.false_ne_true hpref
  · apply hne
    have hpi : inn <+: innE ++ (cl ++ S) := ( List.prefix_append inn cl).trans hp2
    have heqt := List.prefix_iff_eq_take.mp hpi
    rw [List.take_append_eq_append_take, heq, Nat.sub_self, List.take_zero,
      List.append_nil, List.take_length] at heqt
    exact heqt
  · have hdrop := hp2.drop innE.length
    rw [List.drop_append_eq_append_drop, Nat.sub_eq_zero_of_le (Nat.le_of_lt hgt),
      List.drop_zero, List.drop_append_eq_append_drop, List.drop_length, Nat.sub_self,
      List.drop_zero, List.nil_append] at hdrop
    rcases Nat.lt_or_ge (inn.drop innE.length).length cl.length with htlt | htge
    · have hdrop2 := hdrop.drop (inn.drop innE.length).length
      rw [List.drop_append_eq_append_drop, List.drop_length, Nat.sub_self, List.drop_zero,
        List.nil_append] at hdrop2
      rw [List.drop_append_eq_append_drop, Nat.sub_eq_zero_of_le (Nat.le_of_lt htlt),
        List.drop_zero] at hdrop2
      obtain ⟨w, hclw⟩ := hclshape
      have htpos : 0 < (inn.drop innE.length).length := by
        rw [List.length_drop]
        omega
      cases hd : cl.drop (inn.drop innE.length).length with
      | nil => exact absurd (List.drop_eq_nil_iff_le.mp hd) (by omega)
      | cons c cr =>
        have hcmem : c ∈ cl.drop 1 := mem_tail_of_drop htpos hd
        rw [hd, List.cons_append, hclw] at hdrop2
        exact hcllt c hcmem (List.cons_prefix_cons.mp hdrop2).1.symm
    · have hct : cl <+: inn.drop innE.length := by
        have h1 : inn.drop innE.length <+: cl ++ S :=
          ( List.prefix_append _ cl).trans hdrop
        have heqt := List.prefix_iff_eq_take.mp h1
        rw [List.take_append_eq_append_take, List.take_of_length_le htge] at heqt
        exact ⟨_, heqt.symm⟩
      have hfail := hInn innE.length hgt
      have htrue : cl.isPrefixOf (inn.drop innE.length ++ cl) = true :=
        isPrefixOf_extend cl _ cl ( List.isPrefixOf_iff_prefix.mpr hct)
      rw [hfail] at htrue
      exact Bool.false_ne_true htrue

/-! ## The scan over a decomposition -/

theorem assembleTags_append (op cl P Q : Chars) :
    ∀ elems, assembleTags op cl (P ++ Q) elems = P ++ assembleTags op cl Q elems
  | [] => rfl
  | e :: rest => by
    show (P ++ Q) ++ (op ++ (e.1 ++ (cl ++ assembleTags op cl e.2 rest))) =
      P ++ (Q ++ (op ++ (e.1 ++ (cl ++ assembleTags op cl e.2 rest))))
    rw [List.append_assoc]

theorem assembleTags_cons_length (op cl p : Chars) (e : Chars × Chars)
    (rest : List (Chars × Chars)) :
    (assembleTags op cl p (e :: rest)).length =
      p.length + op.length + e.1.length + cl.length +
        (assembleTags op cl e.2 rest).length := by
  show (p ++ (op ++ (e.1 ++ (cl ++ assembleTags op cl e.2 rest)))).length = _
  simp [List.length_append]
  omega

theorem firstMatchInner_trim (target : Chars) :
    ∀ (elems : List (Chars × Chars)) (inn : Chars),
      firstMatchInner target elems = some inn → trimC inn = target := by
  intro elems
  induction elems with
  | nil => intro inn h; exact absurd h (by simp [firstMatchInner])
  | cons e rest ih =>
    intro inn h
    by_cases hm : trimC e.1 = target
    · rw [firstMatchInner, if_pos hm] at h
      rw [← Option.some.inj h]
      exact hm
    · rw [firstMatchInner, if_neg hm] at h
      exact ih inn h

theorem firstMatchInner_clFree (op cl target : Chars) :
    ∀ (elems : List (Chars × Chars)) (inn : Chars), elemsOk op cl elems →
      firstMatchInner target elems = some inn →
      ∀ i, i < inn.length → cl.isPrefixOf (inn.drop i ++ cl) = false := by
  intro elems
  induction elems with
  | nil => intro inn _ h; exact absurd h (by simp [firstMatchInner])
  | cons e rest ih =>
    intro inn helems h
    by_cases hm : trimC e.1 = target
    · rw [firstMatchInner, if_pos hm] at h
      rw [← Option.some.inj h]
      exact (helems e (List.mem_cons_self e rest)).1.2.1
    · rw [firstMatchInner, if_neg hm] at h
      exact ih inn (fun e' he' => helems e' (List.mem_cons_of_mem e he')) h

theorem consumeFirst_noMatch (opId cl target : Chars) :
    ∀ (elems : List (Chars × Chars)) (p : Chars),
      (∀ e ∈ elems, trimC e.1 ≠ target) →
      consumeFirst opId cl target p elems = (p, elems) := by
  intro elems
  induction elems with
  | nil => intro p _; rfl
  | cons e rest ih =>
    intro p hno
    rw [consumeFirst, if_neg (hno e (List.mem_cons_self e rest))]
    rw [ih e.2 (fun e' he' => hno e' (List.mem_cons_of_mem e he'))]

theorem firstMatchInner_none (target : Chars) :
    ∀ (elems : List (Chars × Chars)), firstMatchInner target elems = none →
      ∀ e ∈ elems, trimC e.1 ≠ target := by
  intro elems
  induction elems with
  | nil => intro _ e he; exact absurd he (by simp)
  | cons e rest ih =>
    intro h e' he'
    by_cases hm : trimC e.1 = target
    · rw [firstMatchInner, if_pos hm] at h
      exact absurd h (by simp)
    · rw [firstMatchInner, if_neg hm] at h
      rcases List.mem_cons.mp he' with h1 | h1
      · rw [h1]
        exact hm
      · exact ih h e' h1

/-- The `exec` loop on a well-formed decomposition finds exactly the first
element whose trimmed inner text equals the target. -/
theorem findGo_assemble (lv : Nat) (target : Chars) :
    ∀ (elems : List (Chars × Chars)) (p : Chars) (fuel : Nat),
      (assembleTags (openTag lv) (closeTag lv) p elems).length ≤ fuel →
      pieceOk (openTag lv) p → elemsOk (openTag lv) (closeTag lv) elems →
      findTagWithTextGo (openTag lv) (closeTag lv) target fuel
          (assembleTags (openTag lv) (closeTag lv) p elems) =
        firstMatchInner target elems := by
  intro elems
  induction elems with
  | nil =>
    intro p fuel hfuel hp _
    show findTagWithTextGo (openTag lv) (closeTag lv) target fuel p = none
    cases fuel with
    | zero => rfl
    | succ f =>
      rw [findTagWithTextGo, findTag_none p _ _ (fun i hi => by
        rw [← Bool.not_eq_true]
        intro hc
        have hext := isPrefixOf_extend _ _ (openTag lv) hc
        rw [hp i hi] at hext
        exact Bool.false_ne_true hext)]
  | cons e rest ih =>
    intro p fuel hfuel hp helems
    have hinner := (helems e (List.mem_cons_self e rest)).1
    have hlen := assembleTags_cons_length (openTag lv) (closeTag lv) p e rest
    cases fuel with
    | zero =>
      exfalso
      have := openTag_pos lv
      omega
    | succ f =>
      show findTagWithTextGo (openTag lv) (closeTag lv) target (f + 1)
        (p ++ (openTag lv ++ (e.1 ++ (closeTag lv ++
          assembleTags (openTag lv) (closeTag lv) e.2 rest)))) = _
      rw [findTagWithTextGo]
      have htag : findTag (openTag lv) (closeTag lv)
          (p ++ (openTag lv ++ (e.1 ++ (closeTag lv ++
            assembleTags (openTag lv) (closeTag lv) e.2 rest)))) =
          some (e.1, assembleTags (openTag lv) (closeTag lv) e.2 rest) := by
        rw [findTag_skip p _ _ _ (fun i hi => by
          rw [List.drop_append_eq_append_drop, Nat.sub_eq_zero_of_le (Nat.le_of_lt hi),
            List.drop_zero]
          exact pieceOk_noStart _ _ _ hp (openTag_lt_tail lv)
            ⟨_, by rw [openTag_shape]; rfl⟩ i hi)]
        exact findTag_hit _ _ _ _ (openTag_ne_nil lv) (closeTag_ne_nil lv) hinner.1
          (noStart_cont _ _ _ _ (Nat.le_refl _) hinner.2.1)
      rw [htag]
      show (if trimC e.1 = target then some e.1
        else findTagWithTextGo (openTag lv) (closeTag lv) target f
          (assembleTags (openTag lv) (closeTag lv) e.2 rest)) =
        firstMatchInner target (e :: rest)
      by_cases hm : trimC e.1 = target
      · rw [if_pos hm, firstMatchInner, if_pos hm]
      · rw [if_neg hm, firstMatchInner, if_neg hm]
        refine ih e.2 f (by have := openTag_pos lv; omega)
          (helems e (List.mem_cons_self e rest)).2
          (fun e' he' => helems e' (List.mem_cons_of_mem e he'))

/-- `findTagWithText` on a well-formed decomposition. -/
theorem findTagWithText_assemble (lv : Nat) (target p : Chars)
    (elems : List (Chars × Chars)) (hp : pieceOk (openTag lv) p)
    (helems : elemsOk (openTag lv) (closeTag lv) elems) :
    findTagWithText (openTag lv) (closeTag lv) target
        (assembleTags (openTag lv) (closeTag lv) p elems) =
      firstMatchInner target elems :=
  findGo_assemble lv target elems p _ (Nat.le_refl _) hp helems

/-! ## The first-occurrence replacement over a decomposition -/

/-- Stepping the replacement over one non-matching element: the full matched
element string occurs nowhere inside the leading piece or the element. -/
theorem replaceFirst_elem_step (lv : Nat) (inn innE seg S repl : Chars)
    (hpc : pieceOk (openTag lv) seg)
    (hE : innerOk (openTag lv) (closeTag lv) innE)
    (hne : inn ≠ innE)
    (hInn : ∀ i, i < inn.length →
      (closeTag lv).isPrefixOf (inn.drop i ++ closeTag lv) = false) :
    replaceFirst ((openTag lv ++ inn) ++ closeTag lv) repl
        (seg ++ (openTag lv ++ (innE ++ (closeTag lv ++ S)))) =
      seg ++ (openTag lv ++ (innE ++ (closeTag lv ++
        replaceFirst ((openTag lv ++ inn) ++ closeTag lv) repl S))) := by
  have hopPat : openTag lv <+: (openTag lv ++ inn) ++ closeTag lv := by
    rw [List.append_assoc]
    exact List.prefix_append _ _
  have hpatShape : ∃ w, (openTag lv ++ inn) ++ closeTag lv = '<' :: w := by
    rw [openTag_shape]
    exact ⟨_, rfl⟩
  rw [replaceFirst_skip _ _ seg _ (fun i hi => by
    rw [List.drop_append_eq_append_drop, Nat.sub_eq_zero_of_le (Nat.le_of_lt hi),
      List.drop_zero]
    exact isPrefixOf_false_mono _ _ _ hopPat
      (pieceOk_noStart _ _ _ hpc (openTag_lt_tail lv)
        ⟨_, by rw [openTag_shape]; rfl⟩ i hi))]
  refine congrArg (seg ++ ·) ?_
  rw [replaceFirst_skip _ _ (openTag lv) _ (fun i hi => by
    rcases Nat.eq_zero_or_pos i with rfl | hpos
    · rw [List.drop_zero]
      exact patStart_elem_false (openTag lv) (closeTag lv) inn innE S
        ⟨_, by rw [closeTag_shape]⟩ (closeTag_lt_tail lv) hne hE.2.1 hInn
    · rw [List.drop_append_eq_append_drop, Nat.sub_eq_zero_of_le (Nat.le_of_lt hi),
        List.drop_zero]
      exact ltFree_noStart _ _ _ hpatShape (openTag_lt_tail lv) i hpos hi)]
  refine congrArg (openTag lv ++ ·) ?_
  rw [replaceFirst_skip _ _ innE _ (fun i hi => by
    exact isPrefixOf_false_mono _ _ _ hopPat
      (noStart_cont _ _ _ _ (openTag_length_le lv) hE.2.2 i hi))]
  refine congrArg (innE ++ ·) ?_
  rw [replaceFirst_skip _ _ (closeTag lv) _ (fun i hi => by
    rcases Nat.eq_zero_or_pos i with rfl | hpos
    · rw [List.drop_zero]
      exact isPrefixOf_false_mono _ _ _ hopPat (op_not_prefix_cl lv S)
    · rw [List.drop_append_eq_append_drop, Nat.sub_eq_zero_of_le (Nat.le_of_lt hi),
        List.drop_zero]
      exact ltFree_noStart _ _ _ hpatShape (closeTag_lt_tail lv) i hpos hi)]

/-- Replacing at the matching element. -/
theorem replaceFirst_elem_hit (lv : Nat) (a inn seg S : Chars)
    (hpc : pieceOk (openTag lv) seg) :
    replaceFirst ((openTag lv ++ inn) ++ closeTag lv)
        ((openIdTag lv a ++ inn) ++ closeTag lv)
        (seg ++ (openTag lv ++ (inn ++ (closeTag lv ++ S)))) =
      seg ++ (openIdTag lv a ++ (inn ++ (closeTag lv ++ S))) := by
  have hopPat : openTag lv <+: (openTag lv ++ inn) ++ closeTag lv := by
    rw [List.append_assoc]
    exact List.prefix_append _ _
  have hshape : openTag lv ++ (inn ++ (closeTag lv ++ S)) =
      ((openTag lv ++ inn) ++ closeTag lv) ++ S := by
    simp [List.append_assoc]
  rw [replaceFirst_skip _ _ seg _ (fun i hi => by
    rw [List.drop_append_eq_append_drop, Nat.sub_eq_zero_of_le (Nat.le_of_lt hi),
      List.drop_zero]
    exact isPrefixOf_false_mono _ _ _ hopPat
      (pieceOk_noStart _ _ _ hpc (openTag_lt_tail lv)
        ⟨_, by rw [openTag_shape]; rfl⟩ i hi))]
  rw [hshape, replaceFirst_hit _ _ S (fun hc =>
    closeTag_ne_nil lv (List.append_eq_nil.mp hc).2)]
  simp [List.append_assoc]

/-- The replacement step of `addHeadingId` consumes exactly the first
matching element of a well-formed decomposition. -/
theorem replaceFirst_consume (lv : Nat) (a target : Chars) :
    ∀ (elems : List (Chars × Chars)) (p inn : Chars),
      pieceOk (openTag lv) p → elemsOk (openTag lv) (closeTag lv) elems →
      firstMatchInner target elems = some inn →
      (∀ i, i < inn.length →
        (closeTag lv).isPrefixOf (inn.drop i ++ closeTag lv) = false) →
      replaceFirst ((openTag lv ++ inn) ++ closeTag lv)
          ((openIdTag lv a ++ inn) ++ closeTag lv)
          (assembleTags (openTag lv) (closeTag lv) p elems) =
        assembleTags (openTag lv) (closeTag lv)
          (consumeFirst (openIdTag lv a) (closeTag lv) target p elems).1
          (consumeFirst (openIdTag lv a) (closeTag lv) target p elems).2 := by
  intro elems
  induction elems with
  | nil => intro p inn _ _ hm; exact absurd hm (by simp [firstMatchInner])
  | cons e rest ih =>
    intro p inn hp helems hm hInn
    by_cases hmatch : trimC e.1 = target
    · have hinn : inn = e.1 := by
        rw [firstMatchInner, if_pos hmatch] at hm
        exact (Option.some.inj hm).symm
      subst hinn
      show replaceFirst _ _ (p ++ (openTag lv ++ (e.1 ++ (closeTag lv ++
          assembleTags (openTag lv) (closeTag lv) e.2 rest)))) = _
      rw [replaceFirst_elem_hit lv a e.1 p _ hp]
      rw [consumeFirst, if_pos hmatch]
      rw [assembleTags_append, assembleTags_append, assembleTags_append,
        assembleTags_append]
    · have hm' : firstMatchInner target rest = some inn := by
        rw [firstMatchInner, if_neg hmatch] at hm
        exact hm
      have hne : inn ≠ e.1 := fun hcon =>
        hmatch (hcon ▸ firstMatchInner_trim target rest inn hm')
      show replaceFirst _ _ (p ++ (openTag lv ++ (e.1 ++ (closeTag lv ++
          assembleTags (openTag lv) (closeTag lv) e.2 rest)))) = _
      rw [replaceFirst_elem_step lv inn e.1 p _ _ hp
        (helems e (List.mem_cons_self e rest)).1 hne hInn]
      rw [ih e.2 inn (helems e (List.mem_cons_self e rest)).2
        (fun e' he' => helems e' (List.mem_cons_of_mem e he')) hm' hInn]
      rw [consumeFirst, if_neg hmatch]
      rfl

/-- One `forEach` step of `addHeadingIds` on a well-formed decomposition is
exactly the claim's consumption of the first matching element. -/
theorem addHeadingId_consume (lv : Nat) (r : Heading) (hlv : r.level = lv)
    (elems : List (Chars × Chars)) (p : Chars)
    (hp : pieceOk (openTag lv) p)
    (helems : elemsOk (openTag lv) (closeTag lv) elems) :
    addHeadingId (assembleTags (openTag lv) (closeTag lv) p elems) r =
      assembleTags (openTag lv) (closeTag lv)
        (consumeFirst (openIdTag lv r.id) (closeTag lv) (trimC r.text) p elems).1
        (consumeFirst (openIdTag lv r.id) (closeTag lv) (trimC r.text) p elems).2 := by
  subst hlv
  rw [addHeadingId]
  rw [findTagWithText_assemble r.level (trimC r.text) p elems hp helems]
  cases hm : firstMatchInner (trimC r.text) elems with
  | none =>
    rw [consumeFirst_noMatch _ _ _ elems p (firstMatchInner_none _ elems hm)]
  | some inn =>
    exact replaceFirst_consume r.level r.id (trimC r.text) elems p inn hp helems hm
      (firstMatchInner_clFree _ _ _ elems inn helems hm)

/-- Consuming an element preserves well-formedness: the marked element's
markup becomes part of a clean text piece (its id-carrying open tag no longer
parses as `<hL>`). -/
theorem consumeFirst_wf (lv : Nat) (a target : Chars) (ha : ∀ c ∈ a, c ≠ '<') :
    ∀ (elems : List (Chars × Chars)) (p : Chars),
      pieceOk (openTag lv) p → elemsOk (openTag lv) (closeTag lv) elems →
      pieceOk (openTag lv)
          (consumeFirst (openIdTag lv a) (closeTag lv) target p elems).1 ∧
      elemsOk (openTag lv) (closeTag lv)
        (consumeFirst (openIdTag lv a) (closeTag lv) target p elems).2 := by
  intro elems
  induction elems with
  | nil => intro p hp he; exact ⟨hp, he⟩
  | cons e rest ih =>
    intro p hp helems
    have hinner := (helems e (List.mem_cons_self e rest)).1
    have hseg := (helems e (List.mem_cons_self e rest)).2
    have htail : elemsOk (openTag lv) (closeTag lv) rest :=
      fun e' he' => helems e' (List.mem_cons_of_mem e he')
    by_cases hmatch : trimC e.1 = target
    · rw [consumeFirst, if_pos hmatch]
      refine ⟨?_, htail⟩
      refine pieceOk_append _ _ _ (fun i hi => ?_) ?_
      · exact pieceOk_noStart _ _ _ hp (openTag_lt_tail lv)
          ⟨_, by rw [openIdTag_shape]; rfl⟩ i hi
      · refine pieceOk_append _ _ _ (fun i hi => ?_) ?_
        · rcases Nat.eq_zero_or_pos i with rfl | hpos
          · rw [List.drop_zero]
            exact op_not_prefix_opId lv a _
          · exact ltFree_noStart _ _ _ ⟨_, by rw [openTag_shape]⟩
              (openIdTag_lt_tail lv a ha) i hpos hi
        · refine pieceOk_append _ _ _ (fun i hi => ?_) ?_
          · rw [List.append_assoc (closeTag lv) e.2 (openTag lv), ← List.append_assoc]
            rw [isPrefixOf_trunc (openTag lv) (e.1.drop i ++ closeTag lv) _ (by
              rw [List.length_append]
              have := openTag_length_le lv
              omega)]
            exact hinner.2.2 i hi
          · refine pieceOk_append _ _ _ (fun i hi => ?_) hseg
            rcases Nat.eq_zero_or_pos i with rfl | hpos
            · rw [List.drop_zero]
              exact op_not_prefix_cl lv _
            · exact ltFree_noStart _ _ _ ⟨_, by rw [openTag_shape]⟩
                (closeTag_lt_tail lv) i hpos hi
    · rw [consumeFirst, if_neg hmatch]
      have hrec := ih e.2 hseg htail
      refine ⟨hp, fun e' he' => ?_⟩
      rcases List.mem_cons.mp he' with h1 | h1
      · rw [h1]
        exact ⟨hinner, hrec.1⟩
      · exact hrec.2 e' h1

/-! ## Base64 round trip -/

theorem b64Char_spec : ∀ k, k < 64 → b64Val (b64Char k) = some k ∧ b64Char k ≠ '=' := by
  decide

theorem base64_roundtrip : ∀ (bs : List Nat), (∀ b ∈ bs, b < 256) →
    base64Decode (base64Encode bs) = some bs
  | [], _ => rfl
  | [b1], h => by
    have hb1 : b1 < 256 := h b1 (by simp)
    have h1 := b64Char_spec (b1 / 4) (by omega)
    have h2 := b64Char_spec (b1 % 4 * 16) (by omega)
    show base64Decode [b64Char (b1 / 4), b64Char (b1 % 4 * 16), '=', '='] = some [b1]
    rw [base64Decode, h1.1, h2.1]
    simp only [Option.some_bind]
    rw [if_pos (by simp)]
    have e1 : b1 / 4 * 4 + b1 % 4 * 16 / 16 = b1 := by omega
    rw [e1]
  | [b1, b2], h => by
    have hb1 : b1 < 256 := h b1 (by simp)
    have hb2 : b2 < 256 := h b2 (by simp)
    have h1 := b64Char_spec (b1 / 4) (by omega)
    have h2 := b64Char_spec (b1 % 4 * 16 + b2 / 16) (by omega)
    have h3 := b64Char_spec (b2 % 16 * 4) (by omega)
    show base64Decode [b64Char (b1 / 4), b64Char (b1 % 4 * 16 + b2 / 16),
      b64Char (b2 % 16 * 4), '='] = some [b1, b2]
    rw [base64Decode, h1.1, h2.1]
    simp only [Option.some_bind]
    rw [if_neg (fun hc => h3.2 hc.1), h3.1]
    simp only [Option.some_bind]
    rw [if_pos (by simp)]
    have e1 : b1 / 4 * 4 + (b1 % 4 * 16 + b2 / 16) / 16 = b1 := by omega
    have e2 : (b1 % 4 * 16 + b2 / 16) % 16 * 16 + b2 % 16 * 4 / 4 = b2 := by omega
    rw [e1, e2]
  | b1 :: b2 :: b3 :: rest, h => by
    have hb1 : b1 < 256 := h b1 (by simp)
    have hb2 : b2 < 256 := h b2 (by simp)
    have hb3 : b3 < 256 := h b3 (by simp)
    have h1 := b64Char_spec (b1 / 4) (by omega)
    have h2 := b64Char_spec (b1 % 4 * 16 + b2 / 16) (by omega)
    have h3 := b64Char_spec (b2 % 16 * 4 + b3 / 64) (by omega)
    have h4 := b64Char_spec (b3 % 64) (by omega)
    have ih := base64_roundtrip rest (fun b hb => h b (by simp [hb]))
    show base64Decode (b64Char (b1 / 4) :: b64Char (b1 % 4 * 16 + b2 / 16) ::
      b64Char (b2 % 16 * 4 + b3 / 64) :: b64Char (b3 % 64) :: base64Encode rest) =
      some (b1 :: b2 :: b3 :: rest)
    rw [base64Decode, h1.1, h2.1]
    simp only [Option.some_bind]
    rw [if_neg (fun hc => h3.2 hc.1), h3.1]
    simp only [Option.some_bind]
    rw [if_neg (fun hc => h4.2 hc.1), h4.1]
    simp only [Option.some_bind]
    rw [ih]
    simp only [Option.some_bind]
    have e1 : b1 / 4 * 4 + (b1 % 4 * 16 + b2 / 16) / 16 = b1 := by omega
    have e2 : (b1 % 4 * 16 + b2 / 16) % 16 * 16 + (b2 % 16 * 4 + b3 / 64) / 4 = b2 := by
      omega
    have e3 : (b2 % 16 * 4 + b3 / 64) % 4 * 64 + b3 % 64 = b3 := by omega
    rw [e1, e2, e3]

/-! ## Shared fact about classification -/

theorem remap_isExternal_false (cfg : ImagePathConfig) (p : Chars)
    (h : isExternalUrl p = false) : (remapImagePath cfg p).isExternal = false := by
  rw [remapImagePath, if_neg (by simp [h])]

/-! ## Claim theorems -/

/-- Claim C2: the anchor identifier generator maps the heading text
"Getting Started" to the id "getting-started" (also through the heading
extractor on the line `## Getting Started`), and the combined-mode record
qualified with source file `guide.md` — text "Getting Started (guide.md)" —
to the id "getting-started-guide-md".  The generator is modelled from the
spec (the npm `slugify` dependency is not part of this repository's
sources). -/
theorem anchor_id_examples :
    slugifyModel "Getting Started".data = "getting-started".data ∧
    slugifyModel "Getting Started (guide.md)".data = "getting-started-guide-md".data ∧
    (extractHeadings "## Getting Started".data).map (fun r => r.id) =
      ["getting-started".data] ∧
    qualifyHeading "guide.md".data
        ⟨2, "Getting Started".data, "getting-started".data⟩ =
      ⟨2, "Getting Started (guide.md)".data, "getting-started-guide-md".data⟩ := by
  refine ⟨by decide, by decide, by decide, by decide⟩

/-- Claim C3: an image reference that begins with `http://` or `https://`
(case-insensitively) is returned unchanged by the remapper (classified
external), by the linked-mode copy step, and by the embedded-mode per-element
resolver, which leaves the markup untouched for such a reference. -/
theorem external_url_untouched (cfg : ImagePathConfig) (fsEx : Chars → Bool)
    (fs : Chars → Option (List Nat)) (dir html tag p : Chars)
    (h : isExternalUrl p = true) :
    remapImagePath cfg p = ⟨p, true⟩ ∧
    copyImageRef fsEx cfg dir p = p ∧
    embedTag fs cfg dir html (tag, p) = html := by
  refine ⟨?_, ?_, ?_⟩
  · rw [remapImagePath, if_pos h]
  · rw [copyImageRef, if_pos h]
  · rw [embedTag]
    exact if_pos h

theorem external_url_untouched_witness :
    remapImagePath defaultImagePathConfig "HTTPS://example.com/assets/a.png".data =
      ⟨"HTTPS://example.com/assets/a.png".data, true⟩ ∧
    copyImageRef (fun _ => true) defaultImagePathConfig "docs".data
      "HTTPS://example.com/assets/a.png".data = "HTTPS://example.com/assets/a.png".data ∧
    embedTag (fun _ => some [1]) defaultImagePathConfig "docs".data
      "<p>x</p>".data ("<img>".data, "HTTPS://example.com/assets/a.png".data) =
      "<p>x</p>".data :=
  external_url_untouched defaultImagePathConfig (fun _ => true) (fun _ => some [1])
    "docs".data "<p>x</p>".data "<img>".data "HTTPS://example.com/assets/a.png".data
    (by decide)

/-- Claim C5: in linked mode, a non-external reference whose remapped path
does not resolve to an existing file is returned unchanged by the copy step
(the run continues; the warning log line is outside the model). -/
theorem copy_missing_returns_original (fsEx : Chars → Bool)
    (cfg : ImagePathConfig) (srcFile p : Chars)
    (h1 : isExternalUrl p = false)
    (h2 : fsEx (resolvePath (dirname srcFile) (remapImagePath cfg p).path) = false) :
    copyImages fsEx cfg srcFile [p] = [p] := by
  simp only [copyImages, List.map_cons, List.map_nil]
  rw [copyImageRef, if_neg (by simp [h1])]
  simp only [remap_isExternal_false cfg p h1, Bool.false_eq_true, if_false, h2]

theorem copy_missing_returns_original_witness :
    copyImages (fun _ => false) defaultImagePathConfig "docs/guide.md".data
      ["./img/missing.png".data] = ["./img/missing.png".data] :=
  copy_missing_returns_original (fun _ => false) defaultImagePathConfig
    "docs/guide.md".data "./img/missing.png".data (by decide) (by decide)

/-- Claim C9: the run exits with a nonzero status exactly when no markdown
input files were found, or when the output format is `pdf` and the paper size
is outside {A4, Letter, Legal}; in either exit case no output units are
processed.  (Modelled per the decision sequence at the bottom of the script;
crashes of the conversions themselves are outside the model.) -/
theorem exit_nonzero_iff (n : Nat) (format paper : Chars) :
    (exitsNonZero (mainDecision n format paper) = true ↔
      n = 0 ∨ (format = "pdf".data ∧ paper ∉ validPaperSizes)) ∧
    (exitsNonZero (mainDecision n format paper) = true →
      processesOutput (mainDecision n format paper) = false) := by
  by_cases h0 : n = 0
  · rw [mainDecision, if_pos h0]
    exact ⟨⟨fun _ => Or.inl h0, fun _ => rfl⟩, fun _ => rfl⟩
  · rw [mainDecision, if_neg h0]
    by_cases h1 : format = "pdf".data ∧ paper ∉ validPaperSizes
    · rw [if_pos h1]
      exact ⟨⟨fun _ => Or.inr h1, fun _ => rfl⟩, fun _ => rfl⟩
    · rw [if_neg h1]
      by_cases h2 : format = "html".data
      · rw [if_pos h2]
        exact ⟨⟨fun he => absurd he (by decide), fun hc => (hc.elim h0 h1).elim⟩,
          fun he => absurd he (by decide)⟩
      · rw [if_neg h2]
        by_cases h3 : format = "pdf".data
        · rw [if_pos h3]
          exact ⟨⟨fun he => absurd he (by decide), fun hc => (hc.elim h0 h1).elim⟩,
            fun he => absurd he (by decide)⟩
        · rw [if_neg h3]
          exact ⟨⟨fun he => absurd he (by decide), fun hc => (hc.elim h0 h1).elim⟩,
            fun he => absurd he (by decide)⟩

theorem exit_nonzero_iff_witness :
    exitsNonZero (mainDecision 0 "html".data "A4".data) = true ∧
    processesOutput (mainDecision 0 "html".data "A4".data) = false ∧
    exitsNonZero (mainDecision 3 "pdf".data "B5".data) = true ∧
    exitsNonZero (mainDecision 3 "pdf".data "Letter".data) = false := by
  refine ⟨(exit_nonzero_iff 0 "html".data "A4".data).1.mpr (Or.inl rfl),
    (exit_nonzero_iff 0 "html".data "A4".data).2
      ((exit_nonzero_iff 0 "html".data "A4".data).1.mpr (Or.inl rfl)),
    (exit_nonzero_iff 3 "pdf".data "B5".data).1.mpr (Or.inr ⟨rfl, by decide⟩),
    ?_⟩
  have h := (exit_nonzero_iff 3 "pdf".data "Letter".data).1
  by_contra hc
  rcases h.mp (by revert hc; cases exitsNonZero (mainDecision 3 "pdf".data "Letter".data) <;> simp) with h1 | h1
  · omega
  · exact absurd (by decide : "Letter".data ∈ validPaperSizes) h1.2

/-- Claim C6: the remapping rules are applied in list order, each as a global
(every-occurrence) replacement, and the rule `/assets/` → `/_assets/` maps
the raw reference `/assets/logo.png` to `/_assets/logo.png` before any
file-system lookup. -/
theorem remap_rules_ordered_global :
    (∀ (pat repl a b c : Chars), pat ≠ [] →
      (∀ i, i < a.length →
        pat.isPrefixOf ((a ++ (pat ++ (b ++ (pat ++ c)))).drop i) = false) →
      (∀ i, i < b.length → pat.isPrefixOf ((b ++ (pat ++ c)).drop i) = false) →
      (∀ i, i < c.length → pat.isPrefixOf (c.drop i) = false) →
      replaceAllG pat repl (a ++ (pat ++ (b ++ (pat ++ c)))) =
        a ++ (repl ++ (b ++ (repl ++ c)))) ∧
    (∀ (m1 m2 : Chars × Chars) (p : Chars), isExternalUrl p = false →
      (remapImagePath ⟨true, [m1, m2]⟩ p).path =
        replaceAllG m2.1 m2.2 (replaceAllG m1.1 m1.2 p)) ∧
    remapImagePath defaultImagePathConfig "/assets/logo.png".data =
      ⟨"/_assets/logo.png".data, false⟩ := by
  refine ⟨?_, ?_, by decide⟩
  · intro pat repl a b c hp ha hb hc
    rw [replaceAllG_skip pat repl a _ ha, replaceAllG_hit pat repl _ hp,
      replaceAllG_skip pat repl b _ hb, replaceAllG_hit pat repl _ hp,
      replaceAllG_noOcc pat repl c hc]
  · intro m1 m2 p hp
    rw [remapImagePath, if_neg (by simp [hp])]
    simp [List.foldl]

theorem remap_rules_ordered_global_witness :
    replaceAllG "/assets/".data "/_assets/".data
        ("x".data ++ ("/assets/".data ++ ("y".data ++ ("/assets/".data ++ "z".data)))) =
      "x".data ++ ("/_assets/".data ++ ("y".data ++ ("/_assets/".data ++ "z".data))) ∧
    (remapImagePath ⟨true, [("a".data, "b".data), ("b".data, "c".data)]⟩ "a".data).path =
      replaceAllG "b".data "c".data (replaceAllG "a".data "b".data "a".data) :=
  ⟨remap_rules_ordered_global.1 "/assets/".data "/_assets/".data
      "x".data "y".data "z".data (by decide) (by decide) (by decide) (by decide),
    remap_rules_ordered_global.2.1 ("a".data, "b".data) ("b".data, "c".data)
      "a".data (by decide)⟩

/-- Claim C10: external-vs-local classification is decided on the pre-remap
string: a reference that does not begin with `http://`/`https://` is
classified local even when a remapping rule rewrites it into a string with a
network scheme, and both modes then consult the file system at the remapped
string resolved against the source document's directory — missing file means
the original reference (linked) or untouched markup (embedded), existing file
means a local `images/` reference in linked mode. -/
theorem classification_pre_remap (cfg : ImagePathConfig) (p : Chars)
    (h : isExternalUrl p = false) :
    (remapImagePath cfg p).isExternal = false ∧
    (∀ (fsEx : Chars → Bool) (dir : Chars),
      fsEx (resolvePath dir (remapImagePath cfg p).path) = false →
      copyImageRef fsEx cfg dir p = p) ∧
    (∀ (fsEx : Chars → Bool) (dir : Chars),
      fsEx (resolvePath dir (remapImagePath cfg p).path) = true →
      "images/".data.isPrefixOf (copyImageRef fsEx cfg dir p) = true) ∧
    (∀ (fs : Chars → Option (List Nat)) (dir html tag : Chars),
      fs (resolvePath dir (remapImagePath cfg p).path) = none →
      embedTag fs cfg dir html (tag, p) = html) := by
  refine ⟨remap_isExternal_false cfg p h, ?_, ?_, ?_⟩
  · intro fsEx dir h2
    rw [copyImageRef, if_neg (by simp [h])]
    simp only [remap_isExternal_false cfg p h, Bool.false_eq_true, if_false, h2]
  · intro fsEx dir h2
    rw [copyImageRef, if_neg (by simp [h])]
    simp only [remap_isExternal_false cfg p h, Bool.false_eq_true, if_false, h2,
      if_true]
    by_cases hrel : stripDotSlash (dirname (remapImagePath cfg p).path) = ".".data
    · rw [if_pos hrel]
      exact List.isPrefixOf_iff_prefix.mpr (List.prefix_append _ _)
    · rw [if_neg hrel]
      refine List.isPrefixOf_iff_prefix.mpr ?_
      rw [List.append_assoc]
      exact List.prefix_append _ _
  · intro fs dir html tag h2
    rw [embedTag]
    simp only [if_neg (by simp [h] : ¬ isExternalUrl p = true)]
    simp only [remap_isExternal_false cfg p h, Bool.false_eq_true, if_false, h2]

theorem classification_pre_remap_witness :
    isExternalUrl "./cdn/a.png".data = false ∧
    isExternalUrl
      ((remapImagePath ⟨true, [("./cdn/".data, "https://cdn.example.com/".data)]⟩
        "./cdn/a.png".data).path) = true ∧
    (remapImagePath ⟨true, [("./cdn/".data, "https://cdn.example.com/".data)]⟩
      "./cdn/a.png".data).isExternal = false ∧
    copyImageRef (fun _ => false)
        ⟨true, [("./cdn/".data, "https://cdn.example.com/".data)]⟩
        "docs".data "./cdn/a.png".data = "./cdn/a.png".data :=
  ⟨by decide, by decide,
    (classification_pre_remap
      ⟨true, [("./cdn/".data, "https://cdn.example.com/".data)]⟩
      "./cdn/a.png".data (by decide)).1,
    (classification_pre_remap
      ⟨true, [("./cdn/".data, "https://cdn.example.com/".data)]⟩
      "./cdn/a.png".data (by decide)).2.1 (fun _ => false) "docs".data (by decide)⟩

/-- Claim C8: the TOC is the fixed header followed by exactly one entry per
heading record, in the records' order, each entry indented with
`2 * (level - 1)` spaces, carrying the css class for its level, linking to
`#` followed by the record's anchor id, displaying the record's text with
every literal `**` removed and all other inline syntax untouched, and closed
by the list/container end plus the page-break marker. -/
theorem toc_entries_spec (hs : List Heading) :
    generateTOC hs =
      "<div class=\"toc-container\">\n<h2>Table of Contents</h2>\n<ul class=\"toc\">\n".data ++
        (hs.map (fun h =>
          (List.replicate (h.level - 1) "  ".data).flatten ++
            "<li class=\"toc-level-".data ++ (Nat.repr h.level).data ++
            "\"><a href=\"#".data ++ h.id ++ "\">".data ++
            replaceAllG "**".data [] h.text ++
            "</a></li>\n".data)).flatten ++
      "</ul>\n</div>\n<div class=\"page-break\"></div>\n".data := by
  rw [generateTOC, foldl_append_eq_flatten]
  rfl

/-- Claim C7 (counterexample): the line `## ` — two `#` followed by one
whitespace character and nothing else — yields a record under the claim's
description (level 2, empty text) but the extractor returns no record for it:
the regex `^(#{1,6})\s+(.+)$` requires at least one character after the
whitespace run. -/
theorem extract_headings_blank_counterexample :
    extractHeadings "## ".data = [] ∧
    splitLines "## ".data = ["## ".data] ∧
    headingLineClaim "## ".data = some (2, []) := by
  refine ⟨by decide, by decide, by decide⟩

/-- Claim C7 (amended): for carriage-return-free input, the extractor
returns, in document order, one record per line that starts with 1–6 `#`
characters followed by at least one whitespace character and at least one
further character, with level the `#` count and text the trimmed remainder;
lines inside fenced code blocks are extracted like any others (the scan is a
textual pre-pass with no fence handling). -/
theorem extract_headings_line_spec (content : Chars) (hcr : '\r' ∉ content) :
    (extractHeadings content).map (fun r => (r.level, r.text)) =
      (splitLines content).filterMap headingLineSpecA := by
  rw [extractHeadings]
  apply headingsOfLines_map
  intro l hl c hc
  obtain ⟨hne, hmem⟩ := splitLines_chars content l hl c hc
  have hner : c ≠ '\r' := fun hh => hcr (hh ▸ hmem)
  simp [dotOk, hne, hner]

theorem extract_headings_line_spec_witness :
    (extractHeadings "# A\n```\n## hidden\n```\n### **B**\n#### \n##x".data).map
        (fun r => (r.level, r.text)) =
      (splitLines "# A\n```\n## hidden\n```\n### **B**\n#### \n##x".data).filterMap
        headingLineSpecA :=
  extract_headings_line_spec "# A\n```\n## hidden\n```\n### **B**\n#### \n##x".data
    (by decide)

/-- Claim C1 (counterexample): in combined mode the records are mutated to
the qualified text before injection, and the injector compares rendered
heading text against that stored (qualified) text — not against the
pre-qualification text.  A `<h2>Getting Started</h2>` element and the record
for `## Getting Started` from `guide.md` produce no injection at all: the
markup is returned unchanged, without the id attribute the claim requires. -/
theorem anchor_injection_qualified_counterexample :
    qualifyHeading "guide.md".data
        ⟨2, "Getting Started".data, slugifyModel "Getting Started".data⟩ =
      ⟨2, "Getting Started (guide.md)".data, "getting-started-guide-md".data⟩ ∧
    addHeadingIds "<h2>Getting Started</h2>".data
        [qualifyHeading "guide.md".data
          ⟨2, "Getting Started".data, slugifyModel "Getting Started".data⟩] =
      "<h2>Getting Started</h2>".data ∧
    "<h2>Getting Started</h2>".data ≠
      "<h2 id=\"getting-started-guide-md\">Getting Started</h2>".data := by
  refine ⟨by decide, by decide, by decide⟩

/-- Claim C1 (amended): over every ordered record sequence of a level and
every well-formed decomposition of the rendered markup into that level's
heading elements, `addHeadingIds` behaves as the claim's selection rule:
each record, in order, adds its id attribute to the first still-unconsumed
heading element whose trimmed inner text equals the record's stored trimmed
text, consuming it (at most one element per record); a record whose stored
text matches no unconsumed element changes nothing. -/
theorem anchor_injection_stored_text (lv : Nat) (rs : List Heading)
    (p : Chars) (elems : List (Chars × Chars))
    (hrs : ∀ r ∈ rs, r.level = lv ∧ ∀ c ∈ r.id, c ≠ '<')
    (hp : pieceOk (openTag lv) p)
    (helems : elemsOk (openTag lv) (closeTag lv) elems) :
    addHeadingIds (assembleTags (openTag lv) (closeTag lv) p elems) rs =
      assembleTags (openTag lv) (closeTag lv)
        (consumeRecords lv rs p elems).1 (consumeRecords lv rs p elems).2 := by
  have main : ∀ (rs' : List Heading) (p' : Chars) (elems' : List (Chars × Chars)),
      (∀ r ∈ rs', r.level = lv ∧ ∀ c ∈ r.id, c ≠ '<') →
      pieceOk (openTag lv) p' → elemsOk (openTag lv) (closeTag lv) elems' →
      addHeadingIds (assembleTags (openTag lv) (closeTag lv) p' elems') rs' =
        assembleTags (openTag lv) (closeTag lv)
          (consumeRecords lv rs' p' elems').1 (consumeRecords lv rs' p' elems').2 := by
    intro rs'
    induction rs' with
    | nil => intro p' elems' _ _ _; rfl
    | cons r rs' ih =>
      intro p' elems' hrs' hp' helems'
      obtain ⟨hlv, hid⟩ := hrs' r (List.mem_cons_self r rs')
      show addHeadingIds
        (addHeadingId (assembleTags (openTag lv) (closeTag lv) p' elems') r) rs' = _
      rw [addHeadingId_consume lv r hlv elems' p' hp' helems']
      have hwf := consumeFirst_wf lv r.id (trimC r.text) hid elems' p' hp' helems'
      exact ih _ _ (fun r' hr' => hrs' r' (List.mem_cons_of_mem r hr')) hwf.1 hwf.2
  exact main rs p elems hrs hp helems

theorem anchor_injection_stored_text_witness :
    assembleTags (openTag 2) (closeTag 2) "<h1>Doc</h1>\n".data
        [("Intro".data, "\n<p>a</p>\n".data),
         ("Getting Started".data, "\n<p>b</p>\n".data),
         ("Getting Started".data, "\n".data)] =
      ("<h1>Doc</h1>\n<h2>Intro</h2>\n<p>a</p>\n<h2>Getting Started</h2>\n<p>b</p>\n" ++
        "<h2>Getting Started</h2>\n").data ∧
    addHeadingIds
        (assembleTags (openTag 2) (closeTag 2) "<h1>Doc</h1>\n".data
          [("Intro".data, "\n<p>a</p>\n".data),
           ("Getting Started".data, "\n<p>b</p>\n".data),
           ("Getting Started".data, "\n".data)])
        [⟨2, "Getting Started".data, "getting-started".data⟩,
         ⟨2, "Getting Started".data, "getting-started".data⟩,
         ⟨2, "Missing".data, "missing".data⟩] =
      assembleTags (openTag 2) (closeTag 2)
        (consumeRecords 2
          [⟨2, "Getting Started".data, "getting-started".data⟩,
           ⟨2, "Getting Started".data, "getting-started".data⟩,
           ⟨2, "Missing".data, "missing".data⟩] "<h1>Doc</h1>\n".data
          [("Intro".data, "\n<p>a</p>\n".data),
           ("Getting Started".data, "\n<p>b</p>\n".data),
           ("Getting Started".data, "\n".data)]).1
        (consumeRecords 2
          [⟨2, "Getting Started".data, "getting-started".data⟩,
           ⟨2, "Getting Started".data, "getting-started".data⟩,
           ⟨2, "Missing".data, "missing".data⟩] "<h1>Doc</h1>\n".data
          [("Intro".data, "\n<p>a</p>\n".data),
           ("Getting Started".data, "\n<p>b</p>\n".data),
           ("Getting Started".data, "\n".data)]).2 ∧
    assembleTags (openTag 2) (closeTag 2)
        (consumeRecords 2
          [⟨2, "Getting Started".data, "getting-started".data⟩,
           ⟨2, "Getting Started".data, "getting-started".data⟩,
           ⟨2, "Missing".data, "missing".data⟩] "<h1>Doc</h1>\n".data
          [("Intro".data, "\n<p>a</p>\n".data),
           ("Getting Started".data, "\n<p>b</p>\n".data),
           ("Getting Started".data, "\n".data)]).1
        (consumeRecords 2
          [⟨2, "Getting Started".data, "getting-started".data⟩,
           ⟨2, "Getting Started".data, "getting-started".data⟩,
           ⟨2, "Missing".data, "missing".data⟩] "<h1>Doc</h1>\n".data
          [("Intro".data, "\n<p>a</p>\n".data),
           ("Getting Started".data, "\n<p>b</p>\n".data),
           ("Getting Started".data, "\n".data)]).2 =
      ("<h1>Doc</h1>\n<h2>Intro</h2>\n<p>a</p>\n" ++
        "<h2 id=\"getting-started\">Getting Started</h2>\n<p>b</p>\n" ++
        "<h2 id=\"getting-started\">Getting Started</h2>\n").data :=
  ⟨by decide,
    anchor_injection_stored_text 2
      [⟨2, "Getting Started".data, "getting-started".data⟩,
       ⟨2, "Getting Started".data, "getting-started".data⟩,
       ⟨2, "Missing".data, "missing".data⟩] "<h1>Doc</h1>\n".data
      [("Intro".data, "\n<p>a</p>\n".data),
       ("Getting Started".data, "\n<p>b</p>\n".data),
       ("Getting Started".data, "\n".data)]
      (by decide) (by decide) (by decide),
    by decide⟩

/-- Claim C4: in embedded mode, a non-external image reference whose remapped
path resolves to an existing file has its element's `src` attribute replaced
by `data:<mime>;base64,<payload>`, the payload base64-decodes back to exactly
the file's bytes, and the MIME type is the extension table of the source
(jpg/jpeg → image/jpeg, png, gif, svg → image/svg+xml, webp, and `image/<e>`
for any other extension `e`). -/
theorem embed_existing_data_uri (fs : Chars → Option (List Nat))
    (cfg : ImagePathConfig) (srcFile hPre tagPre tagPost hPost p : Chars)
    (bytes : List Nat) (e : Chars)
    (h1 : isExternalUrl p = false)
    (h2 : fs (resolvePath (dirname srcFile) (remapImagePath cfg p).path) = some bytes)
    (h3 : ∀ b ∈ bytes, b < 256)
    (h4 : ∀ i, i < tagPre.length →
      ("src=\"".data ++ p ++ "\"".data).isPrefixOf
        ((tagPre ++ (("src=\"".data ++ p ++ "\"".data) ++ tagPost)).drop i) = false)
    (h5 : ∀ i, i < hPre.length →
      (tagPre ++ (("src=\"".data ++ p ++ "\"".data) ++ tagPost)).isPrefixOf
        ((hPre ++ ((tagPre ++ (("src=\"".data ++ p ++ "\"".data) ++ tagPost)) ++ hPost)).drop i)
        = false)
    (h6 : e ∉ ["jpg".data, "jpeg".data, "png".data, "gif".data, "svg".data, "webp".data]) :
    embedTag fs cfg (dirname srcFile)
        (hPre ++ ((tagPre ++ (("src=\"".data ++ p ++ "\"".data) ++ tagPost)) ++ hPost))
        (tagPre ++ (("src=\"".data ++ p ++ "\"".data) ++ tagPost), p) =
      hPre ++ ((tagPre ++ (("src=\"".data ++
          ("data:".data ++
            mimeFromExt (lowerChars ((extname (resolvePath (dirname srcFile)
              (remapImagePath cfg p).path)).drop 1)) ++
            ";base64,".data ++ base64Encode bytes) ++ "\"".data) ++ tagPost)) ++ hPost) ∧
    base64Decode (base64Encode bytes) = some bytes ∧
    mimeFromExt "jpg".data = "image/jpeg".data ∧
    mimeFromExt "jpeg".data = "image/jpeg".data ∧
    mimeFromExt "png".data = "image/png".data ∧
    mimeFromExt "gif".data = "image/gif".data ∧
    mimeFromExt "svg".data = "image/svg+xml".data ∧
    mimeFromExt "webp".data = "image/webp".data ∧
    mimeFromExt e = "image/".data ++ e := by
  have hsrc : ("src=\"".data ++ p ++ "\"".data) ≠ [] := by
    intro hc
    exact (by decide : "\"".data ≠ ([] : Chars)) (List.append_eq_nil.mp hc).2
  have htagne : (tagPre ++ (("src=\"".data ++ p ++ "\"".data) ++ tagPost)) ≠ [] := by
    intro hc
    exact hsrc (List.append_eq_nil.mp (List.append_eq_nil.mp hc).2).1
  refine ⟨?_, base64_roundtrip bytes h3, by decide, by decide, by decide, by decide,
    by decide, by decide, ?_⟩
  · simp only [embedTag]
    rw [if_neg (by simp [h1])]
    simp only [remap_isExternal_false cfg p h1, Bool.false_eq_true, if_false, h2]
    rw [replaceFirst_skip _ _ tagPre _ h4]
    rw [replaceFirst_hit _ _ tagPost hsrc]
    rw [replaceFirst_skip _ _ hPre _ h5]
    rw [replaceFirst_hit _ _ hPost htagne]
  · have h6' : e ≠ "jpg".data ∧ e ≠ "jpeg".data ∧ e ≠ "png".data ∧ e ≠ "gif".data ∧
        e ≠ "svg".data ∧ e ≠ "webp".data := by
      simpa using h6
    rw [mimeFromExt, if_neg (fun hc => hc.elim h6'.1 h6'.2.1), if_neg h6'.2.2.1,
      if_neg h6'.2.2.2.1, if_neg h6'.2.2.2.2.1, if_neg h6'.2.2.2.2.2]

theorem embed_existing_data_uri_witness :
    embedTag (fun q => if q = "docs/./img/a.png".data then some [137, 80, 78] else none)
        defaultImagePathConfig (dirname "docs/guide.md".data)
        ("<p>before</p>".data ++ (("<img ".data ++ (("src=\"".data ++ "./img/a.png".data ++
          "\"".data) ++ " alt=\"logo\">".data)) ++ "<p>after</p>".data))
        ("<img ".data ++ (("src=\"".data ++ "./img/a.png".data ++ "\"".data) ++
          " alt=\"logo\">".data), "./img/a.png".data) =
      "<p>before</p>".data ++ (("<img ".data ++ (("src=\"".data ++
          ("data:".data ++
            mimeFromExt (lowerChars ((extname (resolvePath (dirname "docs/guide.md".data)
              (remapImagePath defaultImagePathConfig "./img/a.png".data).path)).drop 1)) ++
            ";base64,".data ++ base64Encode [137, 80, 78]) ++ "\"".data) ++
          " alt=\"logo\">".data)) ++ "<p>after</p>".data) ∧
    base64Decode (base64Encode [137, 80, 78]) = some [137, 80, 78] ∧
    mimeFromExt "jpg".data = "image/jpeg".data ∧
    mimeFromExt "jpeg".data = "image/jpeg".data ∧
    mimeFromExt "png".data = "image/png".data ∧
    mimeFromExt "gif".data = "image/gif".data ∧
    mimeFromExt "svg".data = "image/svg+xml".data ∧
    mimeFromExt "webp".data = "image/webp".data ∧
    mimeFromExt "bmp".data = "image/".data ++ "bmp".data :=
  embed_existing_data_uri
    (fun q => if q = "docs/./img/a.png".data then some [137, 80, 78] else none)
    defaultImagePathConfig "docs/guide.md".data "<p>before</p>".data "<img ".data
    " alt=\"logo\">".data "<p>after</p>".data "./img/a.png".data [137, 80, 78] "bmp".data
    (by decide) (by decide) (by decide) (by decide) (by decide) (by decide)
